import Mathlib

/-!
# pcb2gcode: Douglas-Peucker path simplifier and G-code move emitter

A shallow embedding of `douglas_peucker.hpp` / `douglas_peucker.cpp`.

Numbers.  A C `float` is modelled by `Flt`: either `nan` or an exact rational
`fin q`.  Field arithmetic is exact (no rounding, no overflow, no infinities);
NaN propagates through arithmetic and makes every ordered comparison false,
as in IEEE-754.  The three irrational library calls of the program
(`pow(x, 0.5)`, `hypot`, `atan2`) are parameters of the embedding, collected
in `Libm`; theorems quantify over every such library and state the few facts
they need about it as hypotheses.

The embedding therefore agrees with the program on a computation whose
intermediate results are all binary32 numbers, and differs from it where a
float operation rounds, underflows or overflows.  The geometric statements
about `rad1` and `dist_lseg` carry the hypothesis that the values computed
are binary32 numbers (`isBinary32`).

Output.  The stream `m_of` is modelled by the list of lines written so far;
a line is a list of tokens, a token being a literal string or a number
printed by the stream.  Every member function of `Gcode` that writes ends
its output with `endl`, so the stream is at a line start between calls.
Writes to `cerr` are diagnostics and are not modelled.
-/

namespace Pcb2gcode

/-! ## Floating-point numbers -/

/-- A C `float`: not-a-number, or a finite value held exactly. -/
inductive Flt where
  | nan : Flt
  | fin (q : ℚ) : Flt
deriving DecidableEq, Repr

namespace Flt

instance instOfNatFlt (n : Nat) : OfNat Flt n := ⟨fin n⟩

/-- Float addition; NaN propagates. -/
def add : Flt → Flt → Flt
  | fin a, fin b => fin (a + b)
  | _, _ => nan

/-- Float subtraction; NaN propagates. -/
def sub : Flt → Flt → Flt
  | fin a, fin b => fin (a - b)
  | _, _ => nan

/-- Float multiplication; NaN propagates. -/
def mul : Flt → Flt → Flt
  | fin a, fin b => fin (a * b)
  | _, _ => nan

/-- Float division; NaN propagates.  The model has no infinities, so a
division by zero yields `nan`; every division of the program is guarded
against a zero divisor. -/
def div : Flt → Flt → Flt
  | fin a, fin b => if b = 0 then nan else fin (a / b)
  | _, _ => nan

instance instAddFlt : Add Flt := ⟨add⟩
instance instSubFlt : Sub Flt := ⟨sub⟩
instance instMulFlt : Mul Flt := ⟨mul⟩
instance instDivFlt : Div Flt := ⟨div⟩

/-- The C++ `abs` on floats. -/
def abs : Flt → Flt
  | fin a => fin |a|
  | nan => nan

/-- The C `isnan`. -/
def isnan : Flt → Bool
  | nan => true
  | fin _ => false

/-- The C `a < b`: false as soon as one side is NaN. -/
def lt : Flt → Flt → Bool
  | fin a, fin b => decide (a < b)
  | _, _ => false

/-- The C `a > b`. -/
def gt (a b : Flt) : Bool := lt b a

/-- The C `a == b`: false as soon as one side is NaN. -/
def eq : Flt → Flt → Bool
  | fin a, fin b => decide (a = b)
  | _, _ => false

/-- The C `a != b`: the negation of `==`, hence true when one side is NaN. -/
def ne (a b : Flt) : Bool := !(eq a b)

/-- The C `pow(x, 2)`. -/
def sq (a : Flt) : Flt := a * a

end Flt

/-- The constant `FLT_MAX` of `float.h`: (2 - 2^-23) * 2^127. -/
def FLT_MAX : Flt := Flt.fin 340282346638528859811704183484516925440

/-- The constant `FLT_EPSILON` of `float.h`: 2^-23. -/
def FLT_EPSILON : Flt := Flt.fin (1 / 8388608)

/-- The macro `PI` of the source, `3.141592654`. -/
def PI : ℚ := 3141592654 / 1000000000

/-- The irrational functions of the C math library that the program calls. -/
structure Libm where
  /-- The call `pow(x, 0.5)` on a non-negative finite argument. -/
  sqrt : ℚ → ℚ
  /-- The call `hypot(x, y)` on finite arguments. -/
  hypot : ℚ → ℚ → ℚ
  /-- The call `atan2(y, x)` on finite arguments. -/
  atan2 : ℚ → ℚ → ℚ

/-- The call `pow(x, 0.5)`: NaN for NaN and for a negative argument. -/
def Libm.fsqrt (m : Libm) : Flt → Flt
  | Flt.fin a => if a < 0 then Flt.nan else Flt.fin (m.sqrt a)
  | Flt.nan => Flt.nan

/-- The call `hypot(x, y)`; NaN propagates. -/
def Libm.fhypot (m : Libm) : Flt → Flt → Flt
  | Flt.fin a, Flt.fin b => Flt.fin (m.hypot a b)
  | _, _ => Flt.nan

/-- The call `atan2(y, x)`; NaN propagates. -/
def Libm.fatan2 (m : Libm) : Flt → Flt → Flt
  | Flt.fin a, Flt.fin b => Flt.fin (m.atan2 a b)
  | _, _ => Flt.nan

/-! ## Points, planes, moves -/

/-- The class `Point2f`. -/
structure Point2f where
  x : Flt
  y : Flt
deriving DecidableEq, Repr

namespace Point2f

/-- The member `operator-`. -/
def sub (a rhs : Point2f) : Point2f := ⟨a.x - rhs.x, a.y - rhs.y⟩

/-- The member `operator+`. -/
def add (a rhs : Point2f) : Point2f := ⟨a.x + rhs.x, a.y + rhs.y⟩

/-- The member `operator*` (scaling by a float). -/
def smul (a : Point2f) (rhs : Flt) : Point2f := ⟨a.x * rhs, a.y * rhs⟩

/-- The member `cross`, with the plus sign of the source. -/
def cross (a other : Point2f) : Flt := a.x * other.y + a.y * other.x

/-- The member `dot`. -/
def dot (a other : Point2f) : Flt := a.x * other.x + a.y * other.y

/-- The member `mag2`. -/
def mag2 (a : Point2f) : Flt := Flt.sq a.x + Flt.sq a.y

end Point2f

/-- The struct `Point3f`. -/
structure Point3f where
  x : Flt
  y : Flt
  z : Flt
deriving DecidableEq, Repr

/-- The member `Point3f::operator==`: component-wise float equality. -/
def Point3f.eq (a rhs : Point3f) : Bool :=
  Flt.eq a.x rhs.x && Flt.eq a.y rhs.y && Flt.eq a.z rhs.z

/-- The arc plane, held by the source as the `int` 17, 18 or 19.  The
switches of the source have no default branch, so no other value has a
defined behaviour. -/
inductive Plane where
  | G17 : Plane
  | G18 : Plane
  | G19 : Plane
deriving DecidableEq, Repr

/-- The integer the source holds for a plane. -/
def Plane.code : Plane → Nat
  | G17 => 17
  | G18 => 18
  | G19 => 19

/-- A piece of formatted text: a literal string, or a number printed by a
stream in fixed notation. -/
inductive Tok where
  | lit (s : String) : Tok
  | num (v : Flt) : Tok
deriving DecidableEq, Repr

/-- Whether the formatted text is the empty string (`size() == 0`); a
printed number is never empty. -/
def textEmpty (s : List Tok) : Bool :=
  s.all (fun t => match t with
    | Tok.lit l => l.isEmpty
    | Tok.num _ => false)

/-- The class `Move`: a sparse position update with an optional motion mode
`gc` and an optional annotation `center`.  The members `i, j, k, ni, nj, nk`
are never used by the source and are left out.  A coordinate whose flag is
false is indeterminate in C++ and is never read; it is held as NaN here. -/
structure Move where
  x : Flt
  y : Flt
  z : Flt
  nx : Bool
  ny : Bool
  nz : Bool
  gc : String
  center : List Tok
deriving DecidableEq, Repr

namespace Move

/-- The constructor `Move()`. -/
def empty : Move := ⟨Flt.nan, Flt.nan, Flt.nan, false, false, false, "", []⟩

/-- The constructor `Move(Point3f&)`. -/
def ofPoint (p : Point3f) : Move := ⟨p.x, p.y, p.z, true, true, true, "", []⟩

/-- The setter `X`. -/
def X (mv : Move) (value : Flt) : Move := { mv with x := value, nx := true }

/-- The setter `Y`. -/
def Y (mv : Move) (value : Flt) : Move := { mv with y := value, ny := true }

/-- The setter `Z`. -/
def Z (mv : Move) (value : Flt) : Move := { mv with z := value, nz := true }

/-- The setter `Center`. -/
def Center (mv : Move) (value : List Tok) : Move := { mv with center := value }

/-- The setter `GC`. -/
def GC (mv : Move) (value : String) : Move := { mv with gc := value }

end Move

/-! ## Geometry kernel -/

/-- The function `dist_lseg`: distance from the segment `l1..l2` to `p`.
The arithmetic is exact: the rounding of `t`, the underflow of `d2` to 0 and
the overflow of the binary32 operations are not modelled. -/
def dist_lseg (m : Libm) (l1 l2 p : Point3f) : Flt :=
  let dx := l2.x - l1.x
  let dy := l2.y - l1.y
  let dz := l2.z - l1.z
  let d2 := dx * dx + dy * dy + dz * dz
  if Flt.eq d2 0 then 0
  else
    let t := (dx * (p.x - l1.x) + dy * (p.y - l1.y) + dz * (p.z - l1.z)) / d2
    let t := if Flt.lt t 0 then 0 else t
    let t := if Flt.gt t 1 then 1 else t
    let dist2 := Flt.sq (p.x - l1.x - t * dx) + Flt.sq (p.y - l1.y - t * dy)
      + Flt.sq (p.z - l1.z - t * dz)
    m.fsqrt dist2

/-- The function `rad1`: circumradius of a 2D triangle, `FLT_MAX` when the
denominator is below `FLT_EPSILON`.  The arithmetic is exact: the rounding of
`den` and of the product of the `hypot` results and the overflow of the
binary32 operations are not modelled. -/
def rad1 (m : Libm) (x1 y1 x2 y2 x3 y3 : Flt) : Flt :=
  let x12 := x1 - x2
  let y12 := y1 - y2
  let x23 := x2 - x3
  let y23 := y2 - y3
  let x31 := x3 - x1
  let y31 := y3 - y1
  let den := Flt.abs (x12 * y23 - x23 * y12)
  if Flt.lt (Flt.abs den) FLT_EPSILON then FLT_MAX
  else m.fhypot x12 y12 * m.fhypot x23 y23 * m.fhypot x31 y31 / 2 / den

/-- The function `cent1`: centre computed by the barycentric formula, the
sentinel `(FLT_MAX, FLT_MAX)` when the denominator is below `FLT_EPSILON`. -/
def cent1 (x1 y1 x2 y2 x3 y3 : Flt) : Point2f :=
  let p1 : Point2f := ⟨x1, y1⟩
  let p2 : Point2f := ⟨x2, y2⟩
  let p3 : Point2f := ⟨x3, y3⟩
  let den := Flt.abs ((p1.sub p2).cross (p2.sub p3))
  if Flt.lt (Flt.abs den) FLT_EPSILON then ⟨FLT_MAX, FLT_MAX⟩
  else
    let alpha := (p2.sub p3).mag2 * (p1.sub p2).dot (p1.sub p3) / 2 / den / den
    let beta := (p1.sub p3).mag2 * (p2.sub p1).dot (p2.sub p3) / 2 / den / den
    let gamma := (p1.sub p2).mag2 * (p3.sub p1).dot (p3.sub p2) / 2 / den / den
    ((p1.smul alpha).add (p2.smul beta)).add (p3.smul gamma)

/-- The function `arc_center`. -/
def arc_center (plane : Plane) (p1 p2 p3 : Point3f) : Point2f :=
  match plane with
  | Plane.G17 => cent1 p1.x p1.y p2.x p2.y p3.x p3.y
  | Plane.G18 => cent1 p1.x p1.z p2.x p2.z p3.x p3.z
  | Plane.G19 => cent1 p1.y p1.z p2.y p2.z p3.y p3.z

/-- The function `arc_rad`. -/
def arc_rad (m : Libm) (plane : Plane) (p1 p2 p3 : Point3f) : Flt :=
  match plane with
  | Plane.G17 => rad1 m p1.x p1.y p2.x p2.y p3.x p3.y
  | Plane.G18 => rad1 m p1.x p1.z p2.x p2.z p3.x p3.z
  | Plane.G19 => rad1 m p1.y p1.z p2.y p2.z p3.y p3.z

/-- The function `get_pts`: projection onto the plane. -/
def get_pts (plane : Plane) (p : Point3f) : Point2f :=
  match plane with
  | Plane.G17 => ⟨p.x, p.y⟩
  | Plane.G18 => ⟨p.x, p.z⟩
  | Plane.G19 => ⟨p.y, p.z⟩

/-- The function `sign`, with its `FLT_EPSILON` dead band. -/
def sign (i : Flt) : Int :=
  if Flt.lt (Flt.abs i) FLT_EPSILON then 0
  else if Flt.lt i 0 then -1
  else 1

/-- The `set<quadrant>` operation `insert`. -/
def setInsert (q : Int × Int) (s : List (Int × Int)) : List (Int × Int) :=
  if s.contains q then s else s ++ [q]

/-- The function `one_quadrant`.  The set of sign pairs is a duplicate-free
list; `erase` removes the key when present. -/
def one_quadrant (plane : Plane) (c : Point2f) (p1 p2 p3 : Point3f) : Bool :=
  let xc := c.x
  let yc := c.y
  let t1 := get_pts plane p1
  let t2 := get_pts plane p2
  let t3 := get_pts plane p3
  let q1 : Int × Int := (sign (t1.x - xc), sign (t1.y - yc))
  let q2 : Int × Int := (sign (t2.x - xc), sign (t2.y - yc))
  let q3 : Int × Int := (sign (t3.x - xc), sign (t3.y - yc))
  let signs := setInsert q3 (setInsert q2 (setInsert q1
    (setInsert q3 (setInsert q2 (setInsert q1 [])))))
  if signs.length = 1 then true
  else
    let signs := if signs.contains (1, 1) then (signs.erase (1, 0)).erase (0, 1) else signs
    let signs := if signs.contains (1, -1) then (signs.erase (1, 0)).erase (0, -1) else signs
    let signs := if signs.contains (-1, 1) then (signs.erase (-1, 0)).erase (0, 1) else signs
    let signs := if signs.contains (-1, -1) then (signs.erase (-1, 0)).erase (0, -1) else signs
    if signs.length = 1 then true else false

/-- The loop `while (theta_end < theta_mid) theta_end += 2*PI` of `arc_dir`
on finite angles. -/
def arc_dir_unwrap (theta_mid theta_end : ℚ) : ℚ :=
  if theta_end < theta_mid then arc_dir_unwrap theta_mid (theta_end + 2 * PI) else theta_end
termination_by (Int.toNat ⌈(theta_mid - theta_end) / (2 * PI)⌉)
decreasing_by
  have hpi : (0 : ℚ) < 2 * PI := by norm_num [PI]
  have hpos : 0 < (theta_mid - theta_end) / (2 * PI) := div_pos (by linarith) hpi
  have h1 : (theta_mid - (theta_end + 2 * PI)) / (2 * PI)
      = (theta_mid - theta_end) / (2 * PI) - 1 := by
    field_simp
    ring
  rw [h1, Int.ceil_sub_one]
  have h2 : 0 < ⌈(theta_mid - theta_end) / (2 * PI)⌉ := Int.ceil_pos.mpr hpos
  omega

/-- The function `arc_dir`: whether the sweep `p1, p2, p3` around `c` is
counter-clockwise.  A NaN angle makes each comparison false, so the
adjustments are skipped and the result is false.  The turns `2 * PI` are
added exactly: the rounding of the angles to binary32 after each addition is
not modelled. -/
def arc_dir (m : Libm) (plane : Plane) (c : Point2f) (p1 p2 p3 : Point3f) : Bool :=
  let xc := c.x
  let yc := c.y
  let t1 := get_pts plane p1
  let t2 := get_pts plane p2
  let t3 := get_pts plane p3
  let theta_start := m.fatan2 (t1.y - yc) (t1.x - xc)
  let theta_mid := m.fatan2 (t2.y - yc) (t2.x - xc)
  let theta_end := m.fatan2 (t3.y - yc) (t3.x - xc)
  let theta_mid := if Flt.lt theta_mid theta_start then theta_mid + Flt.fin (2 * PI)
    else theta_mid
  let theta_end := match theta_mid, theta_end with
    | Flt.fin a, Flt.fin b => Flt.fin (arc_dir_unwrap a b)
    | _, e => e
  Flt.lt theta_end (Flt.fin (2 * PI))

/-- The function `arc_dist`: deviation of `p` from the circle. -/
def arc_dist (m : Libm) (plane : Plane) (cr : Point2f) (p : Point3f) (radius : Flt) : Flt :=
  match plane with
  | Plane.G17 => Flt.abs (m.fhypot (cr.x - p.x) (cr.y - p.y) - radius)
  | Plane.G18 => Flt.abs (m.fhypot (cr.x - p.x) (cr.y - p.z) - radius)
  | Plane.G19 => Flt.abs (m.fhypot (cr.x - p.y) (cr.y - p.z) - radius)

/-- The function `arc_fmt`: the centre offsets with their axis letters. -/
def arc_fmt (plane : Plane) (cr : Point2f) (p : Point3f) : List Tok :=
  match plane with
  | Plane.G17 => [Tok.lit " I", Tok.num (cr.x - p.x), Tok.lit " J", Tok.num (cr.y - p.y)]
  | Plane.G18 => [Tok.lit " I", Tok.num (cr.x - p.x), Tok.lit " K", Tok.num (cr.y - p.z)]
  | Plane.G19 => [Tok.lit " J", Tok.num (cr.x - p.y), Tok.lit " K", Tok.num (cr.y - p.z)]

/-! ## Path simplifier -/

/-- The value read through an invalid iterator; never read on a non-empty
range. -/
def nanPoint : Point3f := ⟨Flt.nan, Flt.nan, Flt.nan⟩

/-- The first point `*begin` of a range. -/
def front (pts : List Point3f) : Point3f := pts.headD nanPoint

/-- The last point `*(end-1)` of a range. -/
def back (pts : List Point3f) : Point3f := pts.getLastD nanPoint

/-- The point `begin[i]` of a range. -/
def nth (pts : List Point3f) (i : Nat) : Point3f := pts.getD i nanPoint

/-- The scan of `std::max_element` after its first element: `best` at index
`bi` is replaced by a later element only when `best < element`. -/
def max_element_from (best : Flt) (bi i : Nat) : List Flt → Nat
  | [] => bi
  | v :: vs =>
    if Flt.lt best v then max_element_from v i (i + 1) vs
    else max_element_from best bi (i + 1) vs

/-- The index returned by `std::max_element`: the first largest element. -/
def max_element : List Flt → Nat
  | [] => 0
  | v :: vs => max_element_from v 0 1 vs

/-- The scan of `std::min_element` after its first element: `best` at index
`bi` is replaced by a later element only when `element < best`. -/
def min_element_from (best : Flt) (bi i : Nat) : List Flt → Nat
  | [] => bi
  | v :: vs =>
    if Flt.lt v best then min_element_from v i (i + 1) vs
    else min_element_from best bi (i + 1) vs

/-- The index returned by `std::min_element`: the first smallest element. -/
def min_element : List Flt → Nat
  | [] => 0
  | v :: vs => min_element_from v 0 1 vs

/-- The template `std::min(a, b)`: `b` when `b < a`, else `a`. -/
def fmin (a b : Flt) : Flt := if Flt.lt b a then b else a

/-- The vector `d_v` of `douglas`: chord deviation of every point. -/
def d_v (m : Libm) (pts : List Point3f) : List Flt :=
  pts.map (fun p => dist_lseg m (front pts) (back pts) p)

/-- The vector `r_v` of `douglas`: circumradius through every point. -/
def r_v (m : Libm) (plane : Plane) (pts : List Point3f) : List Flt :=
  pts.map (fun p => arc_rad m plane (front pts) p (back pts))

/-- The local `worst_dist_i` of `douglas`. -/
def worst_dist_i (m : Libm) (pts : List Point3f) : Nat := max_element (d_v m pts)

/-- The local `worst_dist` of `douglas`. -/
def worst_dist (m : Libm) (pts : List Point3f) : Flt :=
  (d_v m pts).getD (worst_dist_i m pts) Flt.nan

/-- The local `min_radius` of `douglas`. -/
def min_radius (m : Libm) (plane : Plane) (pts : List Point3f) : Flt :=
  fmin FLT_MAX ((r_v m plane pts).getD (min_element (r_v m plane pts)) Flt.nan)

/-- The local `arc_i` of `douglas`: one less than the index of the minimum
radius when that radius is below `FLT_MAX`, else the last index.  The
subtraction never goes below zero (`min_element_r_v_pos`). -/
def arc_i (m : Libm) (plane : Plane) (pts : List Point3f) : Nat :=
  if Flt.lt (min_radius m plane pts) FLT_MAX then min_element (r_v m plane pts) - 1
  else pts.length - 1

/-- The local `cr` of `douglas`: the centre of the arc candidate. -/
def arc_cr (m : Libm) (plane : Plane) (pts : List Point3f) : Point2f :=
  arc_center plane (front pts) (nth pts (arc_i m plane pts)) (back pts)

/-- The vector `arcdists` of `douglas`. -/
def arcdists (m : Libm) (plane : Plane) (pts : List Point3f) : List Flt :=
  pts.map (fun p => arc_dist m plane (arc_cr m plane pts) p (min_radius m plane pts))

/-- The local `worst_arc_dist` of `douglas`. -/
def worst_arc_dist (m : Libm) (plane : Plane) (pts : List Point3f) : Flt :=
  if Flt.lt (min_radius m plane pts) FLT_MAX then
    if one_quadrant plane (arc_cr m plane pts) (front pts)
        (nth pts (arc_i m plane pts)) (back pts) then
      (arcdists m plane pts).getD (max_element (arcdists m plane pts)) Flt.nan
    else FLT_MAX
  else FLT_MAX

/-- The local `ccw` of `douglas`: the sweep test, negated for plane 18. -/
def arc_ccw (m : Libm) (plane : Plane) (pts : List Point3f) : Bool :=
  let ccw := arc_dir m plane (arc_cr m plane pts) (front pts)
    (nth pts (arc_i m plane pts)) (back pts)
  if plane = Plane.G18 then !ccw else ccw

/-- The function `douglas` on the range `pts`.  The first argument bounds
the recursion depth; `none` is returned when it is exhausted, and for an
empty range, on which the source reads past the range. -/
def douglas (m : Libm) : Nat → Flt → Plane → List Point3f → Bool → Option (List Move)
  | 0, _, _, _, _ => none
  | fuel + 1, tolerance, plane, pts, first =>
    if pts.length = 0 then none
    else if pts.length = 1 then some [Move.ofPoint (front pts)]
    else
      let ps := front pts
      let pe := back pts
      if Flt.lt (worst_arc_dist m plane pts) tolerance
          && Flt.lt (worst_arc_dist m plane pts) (worst_dist m pts) then
        if arc_ccw m plane pts then
          some [Move.ofPoint ps,
            ((Move.ofPoint pe).GC "G03").Center (arc_fmt plane (arc_cr m plane pts) ps)]
        else
          some [Move.ofPoint ps,
            ((Move.ofPoint pe).GC "G02").Center (arc_fmt plane (arc_cr m plane pts) ps)]
      else if Flt.gt (worst_dist m pts) tolerance then
        match douglas m fuel tolerance plane (pts.take (worst_dist_i m pts)) false,
            douglas m fuel tolerance plane (pts.drop (worst_dist_i m pts)) false with
        | some l, some r =>
          some ((if first then [Move.ofPoint ps] else []) ++ l
            ++ [Move.ofPoint (nth pts (worst_dist_i m pts))] ++ r
            ++ (if first then [Move.ofPoint pe] else []))
        | _, _ => none
      else
        some (if first then [Move.ofPoint ps, Move.ofPoint pe] else [])

/-! ## Move emitter -/

/-- The class `Gcode`.  The stream behind `m_of` is held as the list of
lines written so far. -/
structure Gcode where
  m_lastx : Flt
  m_lasty : Flt
  m_lastz : Flt
  m_lastgc : String
  m_homeheight : Flt
  m_safetyheight : Flt
  m_tolerance : Flt
  m_speed : Flt
  plane : Plane
  m_of : List (List Tok)
  m_units : String
  cuts : List Point3f

namespace Gcode

/-- The text one axis contributes to the line built by `move_common`: the
letter and the value when neither the resolved value `v` nor the last
value is NaN and they differ, else nothing. -/
def axisWord (letter : String) (v last : Flt) : List Tok :=
  if !Flt.isnan v && !Flt.isnan last && Flt.ne v last then [Tok.lit letter, Tok.num v]
  else []

/-- The update of one last-emitted coordinate by `move_common`. -/
def axisLast (v last : Flt) : Flt :=
  if !Flt.isnan v && Flt.ne v last then v else last

/-- The member `move_common`. -/
def move_common (g : Gcode) (move : Move) (gc : String) : Gcode :=
  let x := if move.nx then move.x else g.m_lastx
  let y := if move.ny then move.y else g.m_lasty
  let z := if move.nz then move.z else g.m_lastz
  let s := axisWord " X" x g.m_lastx ++ axisWord " Y" y g.m_lasty
    ++ axisWord " Z" z g.m_lastz
  let g1 := { g with
    m_lastx := axisLast x g.m_lastx,
    m_lasty := axisLast y g.m_lasty,
    m_lastz := axisLast z g.m_lastz }
  if !textEmpty s then
    if gc ≠ g1.m_lastgc then
      { g1 with m_of := g1.m_of ++ [Tok.lit gc :: s], m_lastgc := gc }
    else
      { g1 with m_of := g1.m_of ++ [s] }
  else g1

/-- The body of the loop of `flush` over the simplified moves. -/
def emit (g : Gcode) (t : Move) : Gcode :=
  if !textEmpty t.center then
    { g with
      m_of := g.m_of ++ [[Tok.lit t.gc, Tok.lit " X", Tok.num t.x, Tok.lit " Y",
        Tok.num t.y, Tok.lit " Z", Tok.num t.z] ++ t.center],
      m_lastgc := "",
      m_lastx := t.x,
      m_lasty := t.y,
      m_lastz := t.z }
  else g.move_common t "G01"

/-- The moves `flush` obtains from `douglas` for a non-empty buffer: two
outermost calls on the halves of a closed path, else one call.  Each call
is given a recursion bound equal to the length of its range. -/
def flushMoves (m : Libm) (g : Gcode) : Option (List Move) :=
  if (front g.cuts).eq (back g.cuts) && decide (g.cuts.length > 1) then
    let half := g.cuts.length >>> 1
    match douglas m half g.m_tolerance g.plane (g.cuts.take half) true,
        douglas m (g.cuts.length - half) g.m_tolerance g.plane (g.cuts.drop half) true with
    | some moves, some tmp => some (moves ++ tmp)
    | _, _ => none
  else douglas m g.cuts.length g.m_tolerance g.plane g.cuts true

/-- The member `flush`; `none` when a call of `douglas` does not return. -/
def flush (m : Libm) (g : Gcode) : Option Gcode :=
  if g.cuts.length ≠ 0 then
    match flushMoves m g with
    | some moves => some { (moves.foldl emit g) with cuts := [] }
    | none => none
  else some { g with cuts := [] }

/-- The member `cut`. -/
def cut (m : Libm) (g : Gcode) (move : Move) : Option Gcode :=
  let l : Point3f := if g.cuts.length ≠ 0 then back g.cuts
    else ⟨g.m_lastx, g.m_lasty, g.m_lastz⟩
  let x := if move.nx then move.x else l.x
  let y := if move.ny then move.y else l.y
  let z := if move.nz then move.z else l.z
  let dx := Flt.abs (l.x - x)
  let dy := Flt.abs (l.y - y)
  let dz := Flt.abs (l.z - z)
  let flushed := if Flt.gt dx g.m_tolerance || Flt.gt dy g.m_tolerance
      || Flt.gt dz g.m_tolerance then flush m g else some g
  match flushed with
  | some g1 => some { g1 with cuts := g1.cuts ++ [⟨x, y, z⟩] }
  | none => none

/-- The member `set_feed`. -/
def set_feed (m : Libm) (g : Gcode) (f : Flt) : Option Gcode :=
  match flush m g with
  | some g1 => some { g1 with m_of := g1.m_of ++ [[Tok.lit "F", Tok.num f]] }
  | none => none

/-- The member `rapid`. -/
def rapid (m : Libm) (g : Gcode) (move : Move) : Option Gcode :=
  match flush m g with
  | some g1 => some (g1.move_common move "G00")
  | none => none

/-- The member `home`. -/
def home (m : Libm) (g : Gcode) : Option Gcode :=
  match flush m g with
  | some g1 =>
    rapid m g1 ((Move.empty.Z g1.m_homeheight).Center [Tok.lit " (home height)"])
  | none => none

/-- The member `safety`. -/
def safety (m : Libm) (g : Gcode) : Option Gcode :=
  match flush m g with
  | some g1 =>
    rapid m g1 ((Move.empty.Z g1.m_safetyheight).Center [Tok.lit " (safety height)"])
  | none => none

/-- The member `end`. -/
def finish (m : Libm) (g : Gcode) : Option Gcode :=
  match flush m g with
  | some g1 =>
    match safety m g1 with
    | some g2 => some { g2 with m_of := g2.m_of ++ [[Tok.lit "M2"]] }
    | none => none
  | none => none

end Gcode

/-! ## A concrete math library and concrete inputs -/

/-- Newton iteration for the integer square root, at most `fuel` steps; the
guesses decrease strictly, so `n` steps always suffice from the guess `n`. -/
def isqrtGo : Nat → Nat → Nat → Nat
  | 0, _, g => g
  | fuel + 1, n, g =>
    let g1 := (g + n / g) / 2
    if g1 < g then isqrtGo fuel n g1 else g

/-- The integer square root (rounded down). -/
def isqrt (n : Nat) : Nat := isqrtGo n n n

/-- A square root on the rationals, rounded down to a multiple of 2^-24;
exact on the squares of such multiples. -/
def sqrtQ (q : ℚ) : ℚ := (isqrt (Int.toNat (q.num * 4 ^ 24 / q.den)) : ℚ) / 2 ^ 24

/-- The arc tangent on `[0, 1]` by the classical quadratic approximation
`z (π/4 + 0.273 (1 - z))`; exact at 0 and (for the constant `PI`) at 1. -/
def atanUnit (z : ℚ) : ℚ := z * (PI / 4 + 273 / 1000 * (1 - z))

/-- A two-argument arc tangent on the rationals built from `atanUnit` by
octant reduction. -/
def atan2Q (y x : ℚ) : ℚ :=
  if x = 0 ∧ y = 0 then 0
  else if |y| ≤ |x| then
    let a := atanUnit (|y| / |x|)
    if 0 < x then (if 0 ≤ y then a else -a)
    else (if 0 ≤ y then PI - a else a - PI)
  else
    let a := PI / 2 - atanUnit (|x| / |y|)
    if 0 ≤ x then (if 0 < y then a else -a)
    else (if 0 < y then PI - a else a - PI)

/-- A computable math library on the rationals, used to run the model on
concrete inputs. -/
def libmQ : Libm := ⟨sqrtQ, fun x y => sqrtQ (x * x + y * y), atan2Q⟩

/-- The point with the given finite coordinates. -/
def pt (x y z : ℚ) : Point3f := ⟨Flt.fin x, Flt.fin y, Flt.fin z⟩

/-! ## Vocabulary of the statements -/

/-- The position a descriptor carries. -/
def Move.pos (mv : Move) : Point3f := ⟨mv.x, mv.y, mv.z⟩

/-- Whether a descriptor specifies all three axes. -/
def Move.full (mv : Move) : Bool := mv.nx && mv.ny && mv.nz

/-- A float that is NaN or zero, hence not above any non-negative bound. -/
def Flt.nanOrZero (v : Flt) : Prop := v = Flt.nan ∨ v = Flt.fin 0

/-- The Arc test of `douglas`. -/
def arcTest (m : Libm) (tol : Flt) (plane : Plane) (pts : List Point3f) : Bool :=
  Flt.lt (worst_arc_dist m plane pts) tol
    && Flt.lt (worst_arc_dist m plane pts) (worst_dist m pts)

/-- The four points (0,0,0), (4,0,3), (0,0,4), (10,0,0): in plane 17 they
project onto the x axis, so no arc is fitted; the chord deviations from the
chord (0,0,0)-(10,0,0) are 0, 3, 4, 0. -/
def zigzag : List Point3f := [pt 0 0 0, pt 4 0 3, pt 0 0 4, pt 10 0 0]

/-- The three collinear points (0,0,0), (5,0,0), (10,0,0). -/
def straight3 : List Point3f := [pt 0 0 0, pt 5 0 0, pt 10 0 0]

/-- Four points near the quarter circle of radius 25 around the origin in
the XY plane: (25,0), (24,7) and (0,25) lie on it, (20,16) lies outside. -/
def arcPts : List Point3f := [pt 25 0 0, pt 24 7 0, pt 20 16 0, pt 0 25 0]

/-- The squared distance from the point `(px, py, pz)` to the point at
parameter `t` on the line through `(ax, ay, az)` and `(bx, by, bz)`. -/
def sqDistAt (ax ay az bx bY bz px py pz t : ℚ) : ℚ :=
  (px - (ax + t * (bx - ax))) ^ 2 + (py - (ay + t * (bY - ay))) ^ 2
    + (pz - (az + t * (bz - az))) ^ 2

/-- An emitter as built by the constructor with its default arguments, after
a move that last emitted the position (1,2,3): empty buffer, nothing written
yet, no cached mode. -/
def emitter123 : Gcode :=
  { m_lastx := Flt.fin 1, m_lasty := Flt.fin 2, m_lastz := Flt.fin 3, m_lastgc := "",
    m_homeheight := Flt.fin (3 / 2), m_safetyheight := Flt.fin (1 / 25),
    m_tolerance := Flt.fin (1 / 1000), m_speed := Flt.fin 1000, plane := Plane.G17,
    m_of := [], m_units := "G20", cuts := [] }

/-- The arc descriptor `douglas` returns for `arcPts`: the point (0,25,0)
with mode G03 and centre offsets I -25, J 0. -/
def arcMove : Move :=
  ((Move.ofPoint (pt 0 25 0)).GC "G03").Center
    [Tok.lit " I", Tok.num (Flt.fin (-25)), Tok.lit " J", Tok.num (Flt.fin 0)]

/-- An emitter with tolerance 1, plane 17, last emitted position (0,0,0) and
the given buffer. -/
def emitterTol1 (cuts : List Point3f) : Gcode :=
  { m_lastx := Flt.fin 0, m_lasty := Flt.fin 0, m_lastz := Flt.fin 0, m_lastgc := "",
    m_homeheight := Flt.fin (3 / 2), m_safetyheight := Flt.fin (1 / 25),
    m_tolerance := Flt.fin 1, m_speed := Flt.fin 1000, plane := Plane.G17,
    m_of := [], m_units := "G20", cuts := cuts }

/-- A closed buffer that repeats its midpoint: (0,0,0), (1,0,0), (1,0,0),
(0,0,0). -/
def closedRepeat : List Point3f := [pt 0 0 0, pt 1 0 0, pt 1 0 0, pt 0 0 0]

/-- A closed buffer of six distinct steps: (0,0,0), (1,0,0), (1,0,1),
(0,0,1), (1,1,1/2), (0,0,0); consecutive points differ by at most 1 on each
axis. -/
def closedLoop : List Point3f :=
  [pt 0 0 0, pt 1 0 0, pt 1 0 1, pt 0 0 1, pt 1 1 (1 / 2), pt 0 0 0]

/-- The squared distance from the 2D point `c` to the point `(x, y)`. -/
def sqDist2 (c : Point2f) (x y : Flt) : Flt := Flt.sq (c.x - x) + Flt.sq (c.y - y)

/-- The sign pair `one_quadrant` gives to a point: the signs of its
projected offsets from the centre. -/
def signPair (plane : Plane) (c : Point2f) (p : Point3f) : Int × Int :=
  (sign ((get_pts plane p).x - c.x), sign ((get_pts plane p).y - c.y))

/-- The part of `one_quadrant` that follows the computation of the three
sign pairs: the set operations and the two size tests. -/
def one_quadrant_signs (q1 q2 q3 : Int × Int) : Bool :=
  let signs := setInsert q3 (setInsert q2 (setInsert q1
    (setInsert q3 (setInsert q2 (setInsert q1 [])))))
  if signs.length = 1 then true
  else
    let signs := if signs.contains (1, 1) then (signs.erase (1, 0)).erase (0, 1) else signs
    let signs := if signs.contains (1, -1) then (signs.erase (1, 0)).erase (0, -1) else signs
    let signs := if signs.contains (-1, 1) then (signs.erase (-1, 0)).erase (0, 1) else signs
    let signs := if signs.contains (-1, -1) then (signs.erase (-1, 0)).erase (0, -1) else signs
    if signs.length = 1 then true else false

/-- A sign pair of a diagonal quadrant: both signs are non-zero. -/
def diagonal (d : Int × Int) : Prop := d.1 ≠ 0 ∧ d.2 ≠ 0

/-- An axis-aligned sign pair that borders the diagonal quadrant `d`: one
sign is zero and the other is the sign `d` has there. -/
def borders (q d : Int × Int) : Prop := (q.1 = d.1 ∧ q.2 = 0) ∨ (q.1 = 0 ∧ q.2 = d.2)

/-- The three values `sign` can take. -/
def signValues : List Int := [-1, 0, 1]

/-- The sign pairs of the four diagonal quadrants. -/
def diagonals : List (Int × Int) := [(1, 1), (1, -1), (-1, 1), (-1, -1)]

instance bordersDecidable (q d : Int × Int) : Decidable (borders q d) := by
  unfold borders
  exact inferInstance

instance diagonalDecidable (d : Int × Int) : Decidable (diagonal d) := by
  unfold diagonal
  exact inferInstance

/-- The angle `arc_dir` computes for the finite point `(x, y, z)` around the
centre `(xc, yc)` of the plane: `atan2` of the projected offsets. -/
def polarAngle (m : Libm) (plane : Plane) (xc yc x y z : ℚ) : ℚ :=
  match plane with
  | Plane.G17 => m.atan2 (y - yc) (x - xc)
  | Plane.G18 => m.atan2 (z - yc) (x - xc)
  | Plane.G19 => m.atan2 (z - yc) (y - xc)

/-- Three points on the quarter circle of radius 25 around the origin in the
XY plane: (25,0), (20,15), (0,25). -/
def circ3 : List Point3f := [pt 25 0 0, pt 20 15 0, pt 0 25 0]

/-- The constructor `Gcode::Gcode`.  It sets `m_homeheight`,
`m_safetyheight`, `m_tolerance`, `m_speed`, `m_units`, the stream and
`plane = 17`; `m_lastgc` and `cuts` are default-constructed, hence empty.
It does not initialise `m_lastx`, `m_lasty`, `m_lastz`: what these three
members hold after construction is indeterminate, and is given here by the
parameters `lastx`, `lasty`, `lastz`.  `out` is what the stream holds
already. -/
def Gcode.construct (homeheight safetyheight tolerance spindle_speed : Flt) (units : String)
    (out : List (List Tok)) (lastx lasty lastz : Flt) : Gcode :=
  { m_lastx := lastx, m_lasty := lasty, m_lastz := lastz, m_lastgc := "",
    m_homeheight := homeheight, m_safetyheight := safetyheight,
    m_tolerance := tolerance, m_speed := spindle_speed, plane := Plane.G17,
    m_of := out, m_units := units, cuts := [] }

/-- A constructed emitter (home height 3/2, safety height 1/25, tolerance
1/1000, speed 1000, units G20, empty stream) whose three uninitialised
members happen to hold 0. -/
def emitterZero : Gcode :=
  Gcode.construct (Flt.fin (3 / 2)) (Flt.fin (1 / 25)) (Flt.fin (1 / 1000)) (Flt.fin 1000)
    "G20" [] (Flt.fin 0) (Flt.fin 0) (Flt.fin 0)

/-- An emitter whose last emitted position is NaN on every axis.  The
constructor does not establish this state: it is what construction yields
only when the three uninitialised members happen to hold NaN. -/
def emitterNaN : Gcode :=
  Gcode.construct (Flt.fin (3 / 2)) (Flt.fin (1 / 25)) (Flt.fin (1 / 1000)) (Flt.fin 1000)
    "G20" [] Flt.nan Flt.nan Flt.nan

/-- The 19 points of the quarter-circle example as the program receives
them: for k = 0..18 the binary32 numbers nearest to `10 cos(5k°)` and
`10 sin(5k°)` (each coordinate evaluated in double precision and rounded to
binary32), with z = 0, held as exact rationals. -/
def quarterCircle : List Point3f :=
  [pt 10 0 0,
    pt (10445859 / 1048576) (14622307 / 16777216) 0,
    pt (5163229 / 524288) (14566665 / 8388608) 0,
    pt (5064233 / 524288) (5427829 / 2097152) 0,
    pt (9853391 / 1048576) (14345365 / 4194304) 0,
    pt (4751663 / 524288) (8862947 / 2097152) 0,
    pt (9080935 / 1048576) 5 0,
    pt (1073679 / 131072) (6014385 / 1048576) 0,
    pt (4016279 / 524288) (13480233 / 2097152) 0,
    pt (926819 / 131072) (926819 / 131072) 0,
    pt (13480233 / 2097152) (4016279 / 524288) 0,
    pt (6014385 / 1048576) (1073679 / 131072) 0,
    pt 5 (9080935 / 1048576) 0,
    pt (8862947 / 2097152) (4751663 / 524288) 0,
    pt (14345365 / 4194304) (9853391 / 1048576) 0,
    pt (5427829 / 2097152) (5064233 / 524288) 0,
    pt (14566665 / 8388608) (5163229 / 524288) 0,
    pt (14622307 / 16777216) (10445859 / 1048576) 0,
    pt (5783231 / 9444732965739290427392) 10 0]

/-! ## Binary32 representability -/

/-- The odd part of `n`: `n` with its factors of two removed (at most `fuel`
of them). -/
def oddPart : Nat → Nat → Nat
  | 0, n => n
  | fuel + 1, n => if n ≠ 0 ∧ n % 2 = 0 then oddPart fuel (n / 2) else n

/-- Whether the rational `q` is a finite binary32 number: a multiple
`N * 2^-149` of the least subnormal whose odd part is below `2^24` (a
significand of at most 24 bits) and whose magnitude is at most `FLT_MAX`.
An operation of IEEE-754 arithmetic whose exact result is such a number
returns it unchanged: no rounding, no underflow, no overflow. -/
def isBinary32 (q : ℚ) : Bool :=
  decide (2 ^ 149 % q.den = 0)
    && decide (oddPart 300 (q.num.natAbs * (2 ^ 149 / q.den)) < 2 ^ 24)
    && decide (|q| ≤ 340282346638528859811704183484516925440)

/-- The values `rad1` computes on finite arguments up to its test, in exact
arithmetic: the six arguments, the six differences, the two products, their
difference and its absolute value `den`. -/
def rad1_den_steps (x1 y1 x2 y2 x3 y3 : ℚ) : List ℚ :=
  let x12 := x1 - x2
  let y12 := y1 - y2
  let x23 := x2 - x3
  let y23 := y2 - y3
  let x31 := x3 - x1
  let y31 := y3 - y1
  [x1, y1, x2, y2, x3, y3, x12, y12, x23, y23, x31, y31,
    x12 * y23, x23 * y12, x12 * y23 - x23 * y12, |x12 * y23 - x23 * y12|]

/-- The values `rad1` computes on finite arguments in its `return`
expression, in exact arithmetic: the three `hypot` results, their two
products, the half and the quotient by `den`. -/
def rad1_ret_steps (m : Libm) (x1 y1 x2 y2 x3 y3 : ℚ) : List ℚ :=
  let x12 := x1 - x2
  let y12 := y1 - y2
  let x23 := x2 - x3
  let y23 := y2 - y3
  let x31 := x3 - x1
  let y31 := y3 - y1
  let den := |x12 * y23 - x23 * y12|
  [m.hypot x12 y12, m.hypot x23 y23, m.hypot x31 y31,
    m.hypot x12 y12 * m.hypot x23 y23,
    m.hypot x12 y12 * m.hypot x23 y23 * m.hypot x31 y31,
    m.hypot x12 y12 * m.hypot x23 y23 * m.hypot x31 y31 / 2,
    m.hypot x12 y12 * m.hypot x23 y23 * m.hypot x31 y31 / 2 / den]

/-- The values `dist_lseg` computes on finite end points up to its test
`d2 == 0`, in exact arithmetic: the six coordinates, the three differences,
their squares and the two sums. -/
def dist_lseg_d2_steps (ax ay az bx bY bz : ℚ) : List ℚ :=
  let dx := bx - ax
  let dy := bY - ay
  let dz := bz - az
  [ax, ay, az, bx, bY, bz, dx, dy, dz, dx * dx, dy * dy, dz * dz,
    dx * dx + dy * dy, dx * dx + dy * dy + dz * dz]

/-- The values `dist_lseg` computes on finite points after its test
`d2 == 0`, in exact arithmetic: the coordinates of `p`, the offsets of `p`
from `l1`, the three products and two sums of the dot product, the quotient
`t`, and with the clamped `t` the three products, the three differences,
their squares, the two sums and the result of `pow(dist2, 0.5)`. -/
def dist_lseg_steps (m : Libm) (ax ay az bx bY bz px py pz : ℚ) : List ℚ :=
  let dx := bx - ax
  let dy := bY - ay
  let dz := bz - az
  let d2 := dx * dx + dy * dy + dz * dz
  let t := (dx * (px - ax) + dy * (py - ay) + dz * (pz - az)) / d2
  let t := if t < 0 then 0 else t
  let t := if t > 1 then 1 else t
  let ex := px - ax - t * dx
  let ey := py - ay - t * dy
  let ez := pz - az - t * dz
  [px, py, pz, px - ax, py - ay, pz - az,
    dx * (px - ax), dy * (py - ay), dz * (pz - az),
    dx * (px - ax) + dy * (py - ay),
    dx * (px - ax) + dy * (py - ay) + dz * (pz - az),
    (dx * (px - ax) + dy * (py - ay) + dz * (pz - az)) / d2,
    t * dx, t * dy, t * dz, ex, ey, ez, ex ^ 2, ey ^ 2, ez ^ 2,
    ex ^ 2 + ey ^ 2, ex ^ 2 + ey ^ 2 + ez ^ 2,
    m.sqrt (ex ^ 2 + ey ^ 2 + ez ^ 2)]

/-- Whether the three coordinates of a point are finite binary32 numbers. -/
def Point3f.binary32 (p : Point3f) : Bool :=
  match p.x, p.y, p.z with
  | Flt.fin a, Flt.fin b, Flt.fin c => isBinary32 a && isBinary32 b && isBinary32 c
  | _, _, _ => false

/-! # Theorems -/

/-! ## Arithmetic of `Flt` -/

@[simp] theorem Flt.zero_def : (0 : Flt) = Flt.fin 0 := by
  show Flt.fin ((0 : Nat) : ℚ) = Flt.fin 0
  simp

@[simp] theorem Flt.one_def : (1 : Flt) = Flt.fin 1 := by
  show Flt.fin ((1 : Nat) : ℚ) = Flt.fin 1
  simp

@[simp] theorem Flt.two_def : (2 : Flt) = Flt.fin 2 := by
  show Flt.fin ((2 : Nat) : ℚ) = Flt.fin 2
  simp

@[simp] theorem Flt.fin_add (a b : ℚ) : Flt.fin a + Flt.fin b = Flt.fin (a + b) := rfl

@[simp] theorem Flt.fin_sub (a b : ℚ) : Flt.fin a - Flt.fin b = Flt.fin (a - b) := rfl

@[simp] theorem Flt.fin_mul (a b : ℚ) : Flt.fin a * Flt.fin b = Flt.fin (a * b) := rfl

@[simp] theorem Flt.fin_div (a b : ℚ) :
    Flt.fin a / Flt.fin b = if b = 0 then Flt.nan else Flt.fin (a / b) := rfl

@[simp] theorem Flt.nan_add (a : Flt) : Flt.nan + a = Flt.nan := rfl

@[simp] theorem Flt.add_nan (a : Flt) : a + Flt.nan = Flt.nan := by
  cases a <;> rfl

@[simp] theorem Flt.nan_sub (a : Flt) : Flt.nan - a = Flt.nan := rfl

@[simp] theorem Flt.sub_nan (a : Flt) : a - Flt.nan = Flt.nan := by
  cases a <;> rfl

@[simp] theorem Flt.nan_mul (a : Flt) : Flt.nan * a = Flt.nan := rfl

@[simp] theorem Flt.mul_nan (a : Flt) : a * Flt.nan = Flt.nan := by
  cases a <;> rfl

@[simp] theorem Flt.nan_div (a : Flt) : Flt.nan / a = Flt.nan := rfl

@[simp] theorem Flt.div_nan (a : Flt) : a / Flt.nan = Flt.nan := by
  cases a <;> rfl

@[simp] theorem Flt.sq_fin (a : ℚ) : Flt.sq (Flt.fin a) = Flt.fin (a * a) := rfl

@[simp] theorem Flt.sq_nan : Flt.sq Flt.nan = Flt.nan := rfl

@[simp] theorem Flt.abs_fin (a : ℚ) : Flt.abs (Flt.fin a) = Flt.fin |a| := rfl

@[simp] theorem Flt.abs_nan : Flt.abs Flt.nan = Flt.nan := rfl

@[simp] theorem Flt.lt_fin (a b : ℚ) : Flt.lt (Flt.fin a) (Flt.fin b) = decide (a < b) := rfl

@[simp] theorem Flt.nan_lt (a : Flt) : Flt.lt Flt.nan a = false := rfl

@[simp] theorem Flt.lt_nan (a : Flt) : Flt.lt a Flt.nan = false := by
  cases a <;> rfl

@[simp] theorem Flt.gt_fin (a b : ℚ) : Flt.gt (Flt.fin a) (Flt.fin b) = decide (b < a) := rfl

@[simp] theorem Flt.nan_gt (a : Flt) : Flt.gt Flt.nan a = false := by
  cases a <;> rfl

@[simp] theorem Flt.gt_nan (a : Flt) : Flt.gt a Flt.nan = false := rfl

@[simp] theorem Flt.eq_fin (a b : ℚ) : Flt.eq (Flt.fin a) (Flt.fin b) = decide (a = b) := rfl

@[simp] theorem Flt.nan_eq (a : Flt) : Flt.eq Flt.nan a = false := rfl

@[simp] theorem Flt.eq_nan (a : Flt) : Flt.eq a Flt.nan = false := by
  cases a <;> rfl

@[simp] theorem Flt.isnan_fin (a : ℚ) : Flt.isnan (Flt.fin a) = false := rfl

@[simp] theorem Flt.isnan_nan : Flt.isnan Flt.nan = true := rfl

@[simp] theorem Libm.fsqrt_nan (m : Libm) : m.fsqrt Flt.nan = Flt.nan := rfl

@[simp] theorem Libm.fsqrt_fin (m : Libm) (a : ℚ) :
    m.fsqrt (Flt.fin a) = if a < 0 then Flt.nan else Flt.fin (m.sqrt a) := rfl

/-- The absolute value of a float is never below a non-positive bound. -/
theorem Flt.abs_not_lt (v : Flt) (t : ℚ) (ht : t ≤ 0) : Flt.lt (Flt.abs v) (Flt.fin t) = false := by
  cases v with
  | nan => rfl
  | fin a =>
    simp only [Flt.abs_fin, Flt.lt_fin, decide_eq_false_iff_not, not_lt]
    exact le_trans ht (abs_nonneg a)

/-! ## Chord deviation of the two end points -/

theorem Flt.nanOrZero_not_gt (v : Flt) (h : v.nanOrZero) (t : ℚ) (ht : 0 ≤ t) :
    Flt.gt v (Flt.fin t) = false := by
  rcases h with h | h
  · subst h; simp
  · subst h; simp [ht]

theorem dist_lseg_first_fin (m : Libm) (h0 : m.sqrt 0 = 0) (a b c d e f : ℚ) :
    dist_lseg m (pt a b c) (pt d e f) (pt a b c) = Flt.fin 0 := by
  by_cases hd : (d - a) * (d - a) + (e - b) * (e - b) + (f - c) * (f - c) = 0
  · simp [dist_lseg, pt, hd]
  · simp [dist_lseg, pt, hd]
    norm_num [h0]

theorem dist_lseg_last_fin (m : Libm) (h0 : m.sqrt 0 = 0) (a b c d e f : ℚ) :
    dist_lseg m (pt a b c) (pt d e f) (pt d e f) = Flt.fin 0 := by
  by_cases hd : (d - a) * (d - a) + (e - b) * (e - b) + (f - c) * (f - c) = 0
  · simp [dist_lseg, pt, hd]
  · simp [dist_lseg, pt, hd, div_self hd]
    norm_num [h0]

/-- The chord deviation of the first point of a chord is zero, or NaN when a
coordinate of the chord is NaN. -/
theorem dist_lseg_first (m : Libm) (h0 : m.sqrt 0 = 0) (l1 l2 : Point3f) :
    (dist_lseg m l1 l2 l1).nanOrZero := by
  obtain ⟨x1, y1, z1⟩ := l1
  obtain ⟨x2, y2, z2⟩ := l2
  cases x1 <;> cases y1 <;> cases z1 <;> cases x2 <;> cases y2 <;> cases z2 <;>
    first
    | exact Or.inr (dist_lseg_first_fin m h0 _ _ _ _ _ _)
    | (left; simp [dist_lseg])

/-- The chord deviation of the last point of a chord is zero, or NaN when a
coordinate of the chord is NaN. -/
theorem dist_lseg_last (m : Libm) (h0 : m.sqrt 0 = 0) (l1 l2 : Point3f) :
    (dist_lseg m l1 l2 l2).nanOrZero := by
  obtain ⟨x1, y1, z1⟩ := l1
  obtain ⟨x2, y2, z2⟩ := l2
  cases x1 <;> cases y1 <;> cases z1 <;> cases x2 <;> cases y2 <;> cases z2 <;>
    first
    | exact Or.inr (dist_lseg_last_fin m h0 _ _ _ _ _ _)
    | (left; simp [dist_lseg])

/-! ## Ranges -/

theorem front_cons (p : Point3f) (ps : List Point3f) : front (p :: ps) = p := rfl

theorem nth_zero (pts : List Point3f) : nth pts 0 = front pts := by
  cases pts <;> rfl

theorem back_eq_nth (pts : List Point3f) : back pts = nth pts (pts.length - 1) := by
  unfold back nth
  induction pts with
  | nil => rfl
  | cons p ps ih =>
    cases ps with
    | nil => rfl
    | cons q qs =>
      rw [List.getLastD_cons]
      have h1 : (q :: qs).getLastD p = (q :: qs).getLastD nanPoint := by
        rw [List.getLastD_cons, List.getLastD_cons]
      rw [h1, ih]
      simp

theorem back_singleton (p : Point3f) : back [p] = p := rfl

theorem d_v_length (m : Libm) (pts : List Point3f) : (d_v m pts).length = pts.length := by
  simp [d_v]

theorem d_v_getD (m : Libm) (pts : List Point3f) (i : Nat) (hi : i < pts.length) :
    (d_v m pts).getD i Flt.nan = dist_lseg m (front pts) (back pts) (nth pts i) := by
  unfold d_v nth
  rw [List.getD_eq_getElem _ _ (by simpa using hi), List.getD_eq_getElem _ _ hi]
  simp

/-- When the worst chord deviation exceeds a non-negative tolerance, the
index where it is attained is neither the first nor the last of the range. -/
theorem split_interior (m : Libm) (h0 : m.sqrt 0 = 0) (t : ℚ) (ht : 0 ≤ t)
    (pts : List Point3f) (hgt : Flt.gt (worst_dist m pts) (Flt.fin t) = true) :
    0 < worst_dist_i m pts ∧ worst_dist_i m pts + 1 < pts.length := by
  have hlt : worst_dist_i m pts < pts.length := by
    by_contra hge
    have hd : worst_dist m pts = Flt.nan := by
      unfold worst_dist
      exact List.getD_eq_default _ _ (by rw [d_v_length]; omega)
    rw [hd] at hgt
    simp at hgt
  have hval := d_v_getD m pts (worst_dist_i m pts) hlt
  refine ⟨?_, ?_⟩
  · by_contra h
    have hs : worst_dist_i m pts = 0 := by omega
    have hd : worst_dist m pts = dist_lseg m (front pts) (back pts) (front pts) := by
      unfold worst_dist
      rw [hval, hs, nth_zero]
    rw [hd, Flt.nanOrZero_not_gt _ (dist_lseg_first m h0 _ _) t ht] at hgt
    exact Bool.false_ne_true hgt
  · by_contra h
    have hs : worst_dist_i m pts = pts.length - 1 := by omega
    have hd : worst_dist m pts = dist_lseg m (front pts) (back pts) (back pts) := by
      unfold worst_dist
      rw [hval, hs, ← back_eq_nth]
    rw [hd, Flt.nanOrZero_not_gt _ (dist_lseg_last m h0 _ _) t ht] at hgt
    exact Bool.false_ne_true hgt

/-! ## Unfolding `douglas` -/

theorem douglas_single (m : Libm) (fuel : Nat) (tol : Flt) (plane : Plane) (p : Point3f)
    (first : Bool) : douglas m (fuel + 1) tol plane [p] first = some [Move.ofPoint p] := by
  simp [douglas, front]

theorem douglas_arc (m : Libm) (fuel : Nat) (tol : Flt) (plane : Plane) (pts : List Point3f)
    (first : Bool) (hlen : 2 ≤ pts.length) (harc : arcTest m tol plane pts = true) :
    douglas m (fuel + 1) tol plane pts first
      = some [Move.ofPoint (front pts),
          ((Move.ofPoint (back pts)).GC (if arc_ccw m plane pts then "G03" else "G02")).Center
            (arc_fmt plane (arc_cr m plane pts) (front pts))] := by
  unfold arcTest at harc
  have h0 : pts.length ≠ 0 := by omega
  have h1 : pts.length ≠ 1 := by omega
  rw [douglas]
  simp only [h0, h1, if_false, harc, if_true]
  split <;> rfl

theorem douglas_split (m : Libm) (fuel : Nat) (tol : Flt) (plane : Plane) (pts : List Point3f)
    (first : Bool) (hlen : 2 ≤ pts.length) (harc : arcTest m tol plane pts = false)
    (hgt : Flt.gt (worst_dist m pts) tol = true) :
    douglas m (fuel + 1) tol plane pts first
      = match douglas m fuel tol plane (pts.take (worst_dist_i m pts)) false,
            douglas m fuel tol plane (pts.drop (worst_dist_i m pts)) false with
        | some l, some r =>
          some ((if first then [Move.ofPoint (front pts)] else []) ++ l
            ++ [Move.ofPoint (nth pts (worst_dist_i m pts))] ++ r
            ++ (if first then [Move.ofPoint (back pts)] else []))
        | _, _ => none := by
  unfold arcTest at harc
  have h0 : pts.length ≠ 0 := by omega
  have h1 : pts.length ≠ 1 := by omega
  rw [douglas]
  simp only [h0, h1, if_false, harc, hgt, if_true]
  rfl

theorem douglas_straight (m : Libm) (fuel : Nat) (tol : Flt) (plane : Plane)
    (pts : List Point3f) (first : Bool) (hlen : 2 ≤ pts.length)
    (harc : arcTest m tol plane pts = false) (hgt : Flt.gt (worst_dist m pts) tol = false) :
    douglas m (fuel + 1) tol plane pts first
      = some (if first then [Move.ofPoint (front pts), Move.ofPoint (back pts)] else []) := by
  unfold arcTest at harc
  have h0 : pts.length ≠ 0 := by omega
  have h1 : pts.length ≠ 1 := by omega
  rw [douglas]
  simp only [h0, h1, if_false, harc, hgt]
  rfl

/-- With a non-negative tolerance `douglas` returns on every non-empty range
as soon as the recursion bound is at least the length of the range. -/
theorem douglas_returns (m : Libm) (h0 : m.sqrt 0 = 0) (t : ℚ) (ht : 0 ≤ t) (plane : Plane) :
    ∀ (fuel : Nat) (pts : List Point3f) (first : Bool), pts ≠ [] → pts.length ≤ fuel →
      ∃ r, douglas m fuel (Flt.fin t) plane pts first = some r := by
  intro fuel
  induction fuel with
  | zero =>
    intro pts first hne hlen
    exact absurd (List.length_eq_zero.mp (Nat.le_zero.mp hlen)) hne
  | succ fuel ih =>
    intro pts first hne hlen
    have hpos : 0 < pts.length := List.length_pos.mpr hne
    by_cases h1 : pts.length = 1
    · obtain ⟨p, rfl⟩ := List.length_eq_one.mp h1
      exact ⟨_, douglas_single m fuel _ plane p first⟩
    · have h2 : 2 ≤ pts.length := by omega
      cases harc : arcTest m (Flt.fin t) plane pts with
      | true => exact ⟨_, douglas_arc m fuel _ plane pts first h2 harc⟩
      | false =>
        cases hgt : Flt.gt (worst_dist m pts) (Flt.fin t) with
        | false => exact ⟨_, douglas_straight m fuel _ plane pts first h2 harc hgt⟩
        | true =>
          obtain ⟨hs0, hs1⟩ := split_interior m h0 t ht pts hgt
          obtain ⟨l, hl⟩ := ih (pts.take (worst_dist_i m pts)) false
            (by
              intro hnil
              have hz := congrArg List.length hnil
              rw [List.length_take, List.length_nil] at hz
              omega)
            (by rw [List.length_take]; omega)
          obtain ⟨r, hr⟩ := ih (pts.drop (worst_dist_i m pts)) false
            (by
              intro hnil
              have hz := congrArg List.length hnil
              rw [List.length_drop, List.length_nil] at hz
              omega)
            (by rw [List.length_drop]; omega)
          rw [douglas_split m fuel _ plane pts first h2 harc hgt, hl, hr]
          exact ⟨_, rfl⟩

/-! ## The path simplifier: endpoints, degenerate ranges, termination -/

theorem douglas_endpoints_aux (m : Libm) (plane : Plane) (pts : List Point3f)
    (fuel : Nat) (tol : Flt) (r : List Move)
    (h : douglas m fuel tol plane pts true = some r) :
    (∃ a, r.head? = some a ∧ a.pos = front pts ∧ a.full = true)
      ∧ (∃ b, r.getLast? = some b ∧ b.pos = back pts ∧ b.full = true) := by
  cases fuel with
  | zero => simp [douglas] at h
  | succ fuel =>
    by_cases hz : pts.length = 0
    · simp [douglas, hz] at h
    by_cases h1 : pts.length = 1
    · obtain ⟨p, rfl⟩ := List.length_eq_one.mp h1
      rw [douglas_single] at h
      cases h
      exact ⟨⟨_, rfl, rfl, rfl⟩, ⟨_, rfl, rfl, rfl⟩⟩
    have h2 : 2 ≤ pts.length := by omega
    cases harc : arcTest m tol plane pts with
    | true =>
      rw [douglas_arc m fuel tol plane pts true h2 harc] at h
      cases h
      exact ⟨⟨_, rfl, rfl, rfl⟩, ⟨_, rfl, rfl, rfl⟩⟩
    | false =>
      cases hgt : Flt.gt (worst_dist m pts) tol with
      | false =>
        rw [douglas_straight m fuel tol plane pts true h2 harc hgt] at h
        cases h
        exact ⟨⟨_, rfl, rfl, rfl⟩, ⟨_, rfl, rfl, rfl⟩⟩
      | true =>
        rw [douglas_split m fuel tol plane pts true h2 harc hgt] at h
        cases hl : douglas m fuel tol plane (pts.take (worst_dist_i m pts)) false with
        | none => simp [hl] at h
        | some l =>
          cases hr : douglas m fuel tol plane (pts.drop (worst_dist_i m pts)) false with
          | none => simp [hl, hr] at h
          | some rr =>
            simp only [hl, hr, if_true, Option.some.injEq] at h
            subst h
            refine ⟨⟨Move.ofPoint (front pts), by simp, rfl, rfl⟩,
              ⟨Move.ofPoint (back pts), List.getLast?_concat _, rfl, rfl⟩⟩

/-- C2 (endpoint preservation): for every non-empty range, every plane and
every tolerance (negative and NaN included), whenever the outermost call of
`douglas` returns, the first descriptor of its result is positioned at the
first point of the range and the last descriptor at the last point, with
all three axes specified; and for every non-negative tolerance the call does
return once the recursion bound is the length of the range. -/
theorem douglas_endpoints (m : Libm) (plane : Plane) (pts : List Point3f) (hne : pts ≠ []) :
    (∀ (fuel : Nat) (tol : Flt) (r : List Move),
        douglas m fuel tol plane pts true = some r →
        (∃ a, r.head? = some a ∧ a.pos = front pts ∧ a.full = true)
          ∧ (∃ b, r.getLast? = some b ∧ b.pos = back pts ∧ b.full = true))
      ∧ (∀ t : ℚ, 0 ≤ t → m.sqrt 0 = 0 →
          ∃ r, douglas m pts.length (Flt.fin t) plane pts true = some r) :=
  ⟨fun fuel tol r h => douglas_endpoints_aux m plane pts fuel tol r h,
    fun t ht h0 => douglas_returns m h0 t ht plane pts.length pts true hne (le_refl _)⟩

/-- The statement of `douglas_endpoints` at the points (0,0,0), (4,0,3),
(0,0,4), (10,0,0) in plane 17 with tolerance 1/10. -/
theorem douglas_endpoints_witness :
    zigzag ≠ [] ∧ libmQ.sqrt 0 = 0
      ∧ (∃ a, [Move.ofPoint (pt 0 0 0), Move.ofPoint (pt 0 0 4),
            Move.ofPoint (pt 10 0 0)].head? = some a
          ∧ a.pos = front zigzag ∧ a.full = true)
      ∧ (∃ b, [Move.ofPoint (pt 0 0 0), Move.ofPoint (pt 0 0 4),
            Move.ofPoint (pt 10 0 0)].getLast? = some b
          ∧ b.pos = back zigzag ∧ b.full = true)
      ∧ (∃ r, douglas libmQ zigzag.length (Flt.fin (1 / 10)) Plane.G17 zigzag true
          = some r) :=
  ⟨by decide, by decide!,
    ((douglas_endpoints libmQ Plane.G17 zigzag (by decide)).1 4 (Flt.fin (1 / 10)) _
      (by decide!)).1,
    ((douglas_endpoints libmQ Plane.G17 zigzag (by decide)).1 4 (Flt.fin (1 / 10)) _
      (by decide!)).2,
    (douglas_endpoints libmQ Plane.G17 zigzag (by decide)).2 (1 / 10) (by norm_num)
      (by decide!)⟩

theorem straight3_eval (m : Libm) (h0 : m.sqrt 0 = 0) (fuel : Nat) (plane : Plane) :
    douglas m (fuel + 1) (Flt.fin (1 / 1000)) plane straight3 true
      = some [Move.ofPoint (pt 0 0 0), Move.ofPoint (pt 10 0 0)] := by
  have hw : ∀ pl, worst_arc_dist m pl straight3 = FLT_MAX := by
    intro pl
    cases pl <;>
      simp [worst_arc_dist, min_radius, r_v, arc_rad, rad1, straight3, pt, front, back, fmin,
        min_element, min_element_from, FLT_MAX, FLT_EPSILON]
  have hd : worst_dist m straight3 = Flt.fin 0 := by
    simp [worst_dist, worst_dist_i, d_v, dist_lseg, straight3, pt, front, back,
      max_element, max_element_from]
    norm_num [h0, max_element_from]
  have harc : arcTest m (Flt.fin (1 / 1000)) plane straight3 = false := by
    simp [arcTest, hw, hd, FLT_MAX]
  have hgt : Flt.gt (worst_dist m straight3) (Flt.fin (1 / 1000)) = false := by
    simp [hd]
  rw [douglas_straight m fuel _ plane straight3 true (by decide) harc hgt]
  rfl

/-- C3 (degenerate input): a range of exactly one point yields exactly that
point; a range of at least two points whose worst chord deviation does not
exceed the tolerance yields exactly two descriptors, positioned at the first
and at the last point; and the points (0,0,0), (5,0,0), (10,0,0) with
tolerance 0.001 yield exactly the descriptors (0,0,0) and (10,0,0), both
without mode and without centre, in every plane. -/
theorem douglas_degenerate (m : Libm) (fuel : Nat) (tol : Flt) (plane : Plane) :
    (∀ p : Point3f, douglas m (fuel + 1) tol plane [p] true = some [Move.ofPoint p])
      ∧ (∀ pts : List Point3f, 2 ≤ pts.length → Flt.gt (worst_dist m pts) tol = false →
          ∃ a b, douglas m (fuel + 1) tol plane pts true = some [a, b]
            ∧ a.pos = front pts ∧ a.full = true ∧ b.pos = back pts ∧ b.full = true)
      ∧ (m.sqrt 0 = 0 →
          douglas m (fuel + 1) (Flt.fin (1 / 1000)) plane straight3 true
            = some [Move.ofPoint (pt 0 0 0), Move.ofPoint (pt 10 0 0)]) := by
  refine ⟨fun p => douglas_single m fuel tol plane p true, ?_,
    fun h0 => straight3_eval m h0 fuel plane⟩
  intro pts h2 hgt
  cases harc : arcTest m tol plane pts with
  | true =>
    exact ⟨_, _, douglas_arc m fuel tol plane pts true h2 harc, rfl, rfl, rfl, rfl⟩
  | false =>
    exact ⟨_, _, douglas_straight m fuel tol plane pts true h2 harc hgt, rfl, rfl, rfl, rfl⟩

/-- The statement of `douglas_degenerate` at the collinear points (0,0,0),
(5,0,0), (10,0,0), plane 17, tolerance 1/1000. -/
theorem douglas_degenerate_witness :
    (2 ≤ straight3.length ∧ Flt.gt (worst_dist libmQ straight3) (Flt.fin (1 / 1000)) = false
        ∧ libmQ.sqrt 0 = 0)
      ∧ (∃ a b, douglas libmQ 1 (Flt.fin (1 / 1000)) Plane.G17 straight3 true = some [a, b]
          ∧ a.pos = front straight3 ∧ a.full = true
          ∧ b.pos = back straight3 ∧ b.full = true)
      ∧ douglas libmQ 1 (Flt.fin (1 / 1000)) Plane.G17 straight3 true
          = some [Move.ofPoint (pt 0 0 0), Move.ofPoint (pt 10 0 0)] :=
  ⟨⟨by decide, by decide!, by decide!⟩,
    (douglas_degenerate libmQ 0 (Flt.fin (1 / 1000)) Plane.G17).2.1 straight3 (by decide)
      (by decide!),
    (douglas_degenerate libmQ 0 (Flt.fin (1 / 1000)) Plane.G17).2.2 (by decide!)⟩

/-- C4 (termination): for every non-empty range and every tolerance at
least 0, `douglas` returns as soon as the recursion bound is at least the
length of the range; and whenever the worst chord deviation exceeds the
tolerance (as it does in the Split outcome) the split index is neither 0 nor
the last index, so both sub-ranges of the recursive calls are non-empty and
strictly shorter than the range. -/
theorem douglas_terminates (m : Libm) (h0 : m.sqrt 0 = 0) (t : ℚ) (ht : 0 ≤ t)
    (plane : Plane) (pts : List Point3f) (hne : pts ≠ []) :
    (∀ (fuel : Nat) (first : Bool), pts.length ≤ fuel →
        ∃ r, douglas m fuel (Flt.fin t) plane pts first = some r)
      ∧ (Flt.gt (worst_dist m pts) (Flt.fin t) = true →
          0 < worst_dist_i m pts ∧ worst_dist_i m pts < pts.length - 1
            ∧ pts.take (worst_dist_i m pts) ≠ []
            ∧ (pts.take (worst_dist_i m pts)).length < pts.length
            ∧ pts.drop (worst_dist_i m pts) ≠ []
            ∧ (pts.drop (worst_dist_i m pts)).length < pts.length) := by
  refine ⟨fun fuel first hlen => douglas_returns m h0 t ht plane fuel pts first hne hlen, ?_⟩
  intro hgt
  obtain ⟨hs0, hs1⟩ := split_interior m h0 t ht pts hgt
  refine ⟨hs0, by omega, ?_, by rw [List.length_take]; omega, ?_,
    by rw [List.length_drop]; omega⟩
  · intro hnil
    have hz := congrArg List.length hnil
    rw [List.length_take, List.length_nil] at hz
    omega
  · intro hnil
    have hz := congrArg List.length hnil
    rw [List.length_drop, List.length_nil] at hz
    omega

/-- The statement of `douglas_terminates` at the points (0,0,0), (4,0,3),
(0,0,4), (10,0,0), plane 17, tolerance 1/10, where the range is split at
index 2. -/
theorem douglas_terminates_witness :
    (libmQ.sqrt 0 = 0 ∧ (0 : ℚ) ≤ 1 / 10 ∧ zigzag ≠ []
        ∧ Flt.gt (worst_dist libmQ zigzag) (Flt.fin (1 / 10)) = true)
      ∧ (∃ r, douglas libmQ 4 (Flt.fin (1 / 10)) Plane.G17 zigzag true = some r)
      ∧ (0 < worst_dist_i libmQ zigzag ∧ worst_dist_i libmQ zigzag < zigzag.length - 1
          ∧ zigzag.take (worst_dist_i libmQ zigzag) ≠ []
          ∧ (zigzag.take (worst_dist_i libmQ zigzag)).length < zigzag.length
          ∧ zigzag.drop (worst_dist_i libmQ zigzag) ≠ []
          ∧ (zigzag.drop (worst_dist_i libmQ zigzag)).length < zigzag.length) :=
  ⟨⟨by decide!, by norm_num, by decide, by decide!⟩,
    (douglas_terminates libmQ (by decide!) (1 / 10) (by norm_num) Plane.G17 zigzag
      (by decide)).1 4 true (by decide),
    (douglas_terminates libmQ (by decide!) (1 / 10) (by norm_num) Plane.G17 zigzag
      (by decide)).2 (by decide!)⟩

/-! ## The path simplifier: deviation, zero tolerance, Split and Arc outcomes -/

/-- C1 (deviation bound) evaluated on the points (0,0,0), (4,0,3), (0,0,4),
(10,0,0) in plane 17 with tolerance 1/10: `douglas` returns the descriptors
(0,0,0), (0,0,4), (10,0,0), and the input point (4,0,3) is farther than the
tolerance from every point of the segment (0,0,0)-(0,0,4) and from every
point of the segment (0,0,4)-(10,0,0); its deviations from the two segments
as computed by `dist_lseg` are 4 and more than 1/2. -/
theorem douglas_deviation_zigzag :
    douglas libmQ 4 (Flt.fin (1 / 10)) Plane.G17 zigzag true
        = some [Move.ofPoint (pt 0 0 0), Move.ofPoint (pt 0 0 4), Move.ofPoint (pt 10 0 0)]
      ∧ (∀ t : ℚ, (1 / 10) ^ 2 < sqDistAt 0 0 0 0 0 4 4 0 3 t)
      ∧ (∀ t : ℚ, (1 / 10) ^ 2 < sqDistAt 0 0 4 10 0 0 4 0 3 t)
      ∧ dist_lseg libmQ (pt 0 0 0) (pt 0 0 4) (pt 4 0 3) = Flt.fin 4
      ∧ Flt.gt (dist_lseg libmQ (pt 0 0 4) (pt 10 0 0) (pt 4 0 3)) (Flt.fin (1 / 2)) = true := by
  refine ⟨by decide!, ?_, ?_, by decide!, by decide!⟩
  · intro t
    unfold sqDistAt
    nlinarith [sq_nonneg (3 - t * 4)]
  · intro t
    unfold sqDistAt
    nlinarith [sq_nonneg (29 * t - 11)]

theorem front_mem (pts : List Point3f) (hne : pts ≠ []) : front pts ∈ pts := by
  cases pts with
  | nil => exact absurd rfl hne
  | cons p ps => exact List.mem_cons_self _ _

theorem nth_mem (pts : List Point3f) (i : Nat) (hi : i < pts.length) : nth pts i ∈ pts := by
  unfold nth
  rw [List.getD_eq_getElem _ _ hi]
  exact List.getElem_mem _

theorem back_mem (pts : List Point3f) (hne : pts ≠ []) : back pts ∈ pts := by
  rw [back_eq_nth]
  exact nth_mem pts _ (by have := List.length_pos.mpr hne; omega)

/-- The worst arc deviation is never below a non-positive bound. -/
theorem worst_arc_dist_not_lt (m : Libm) (plane : Plane) (pts : List Point3f) (t : ℚ)
    (ht : t ≤ 0) : Flt.lt (worst_arc_dist m plane pts) (Flt.fin t) = false := by
  have hmax : Flt.lt FLT_MAX (Flt.fin t) = false := by
    simp only [FLT_MAX, Flt.lt_fin, decide_eq_false_iff_not, not_lt]
    linarith
  unfold worst_arc_dist
  split
  · split
    · by_cases hi : max_element (arcdists m plane pts) < (arcdists m plane pts).length
      · rw [List.getD_eq_getElem _ _ hi]
        unfold arcdists
        rw [List.getElem_map]
        cases plane <;> exact Flt.abs_not_lt _ t ht
      · rw [List.getD_eq_default _ _ (by omega)]
        rfl
    · exact hmax
  · exact hmax

theorem arcTest_nonpos (m : Libm) (plane : Plane) (pts : List Point3f) (t : ℚ) (ht : t ≤ 0) :
    arcTest m (Flt.fin t) plane pts = false := by
  unfold arcTest
  rw [worst_arc_dist_not_lt m plane pts t ht]
  rfl

theorem worst_dist_i_lt (m : Libm) (pts : List Point3f) (tol : Flt)
    (hgt : Flt.gt (worst_dist m pts) tol = true) : worst_dist_i m pts < pts.length := by
  by_contra hge
  have hd : worst_dist m pts = Flt.nan := by
    unfold worst_dist
    exact List.getD_eq_default _ _ (by rw [d_v_length]; omega)
  rw [hd] at hgt
  simp at hgt

/-- With tolerance 0 every descriptor returned by `douglas` is the plain
descriptor of a point of the range. -/
theorem douglas_zero_points (m : Libm) (plane : Plane) :
    ∀ (fuel : Nat) (pts : List Point3f) (first : Bool) (r : List Move),
      douglas m fuel (Flt.fin 0) plane pts first = some r →
      ∀ mv ∈ r, ∃ p ∈ pts, mv = Move.ofPoint p := by
  intro fuel
  induction fuel with
  | zero =>
    intro pts first r h
    simp [douglas] at h
  | succ fuel ih =>
    intro pts first r h
    by_cases hz : pts.length = 0
    · simp [douglas, hz] at h
    have hne : pts ≠ [] := fun hnil => hz (by rw [hnil]; rfl)
    by_cases h1 : pts.length = 1
    · obtain ⟨p, rfl⟩ := List.length_eq_one.mp h1
      rw [douglas_single] at h
      cases h
      intro mv hmv
      exact ⟨p, List.mem_singleton_self p, List.mem_singleton.mp hmv⟩
    have h2 : 2 ≤ pts.length := by omega
    have harc := arcTest_nonpos m plane pts 0 (le_refl 0)
    cases hgt : Flt.gt (worst_dist m pts) (Flt.fin 0) with
    | false =>
      rw [douglas_straight m fuel _ plane pts first h2 harc hgt] at h
      cases h
      intro mv hmv
      cases first with
      | false => simp at hmv
      | true =>
        simp only [if_true, List.mem_cons, List.mem_singleton, List.not_mem_nil,
          or_false] at hmv
        rcases hmv with rfl | rfl
        · exact ⟨_, front_mem pts hne, rfl⟩
        · exact ⟨_, back_mem pts hne, rfl⟩
    | true =>
      rw [douglas_split m fuel _ plane pts first h2 harc hgt] at h
      cases hl : douglas m fuel (Flt.fin 0) plane (pts.take (worst_dist_i m pts)) false with
      | none => simp [hl] at h
      | some l =>
        cases hr : douglas m fuel (Flt.fin 0) plane (pts.drop (worst_dist_i m pts)) false with
        | none => simp [hl, hr] at h
        | some rr =>
          simp only [hl, hr, Option.some.injEq] at h
          subst h
          intro mv hmv
          simp only [List.mem_append, List.mem_singleton] at hmv
          rcases hmv with (((hf | hl1) | hm) | hr1) | hb
          · cases first with
            | false => simp at hf
            | true =>
              simp only [if_true, List.mem_singleton] at hf
              exact ⟨_, front_mem pts hne, hf⟩
          · obtain ⟨p, hp, hpe⟩ := ih _ false l hl mv hl1
            exact ⟨p, List.mem_of_mem_take hp, hpe⟩
          · exact ⟨_, nth_mem pts _ (worst_dist_i_lt m pts _ hgt), hm⟩
          · obtain ⟨p, hp, hpe⟩ := ih _ false rr hr mv hr1
            exact ⟨p, List.mem_of_mem_drop hp, hpe⟩
          · cases first with
            | false => simp at hb
            | true =>
              simp only [if_true, List.mem_singleton] at hb
              exact ⟨_, back_mem pts hne, hb⟩

/-- The point of maximum chord deviation is emitted whenever that deviation
exceeds the tolerance and the Arc test fails. -/
theorem douglas_split_mem (m : Libm) (fuel : Nat) (tol : Flt) (plane : Plane)
    (pts : List Point3f) (first : Bool) (r : List Move) (h2 : 2 ≤ pts.length)
    (harc : arcTest m tol plane pts = false) (hgt : Flt.gt (worst_dist m pts) tol = true)
    (h : douglas m (fuel + 1) tol plane pts first = some r) :
    Move.ofPoint (nth pts (worst_dist_i m pts)) ∈ r := by
  rw [douglas_split m fuel tol plane pts first h2 harc hgt] at h
  cases hl : douglas m fuel tol plane (pts.take (worst_dist_i m pts)) false with
  | none => simp [hl] at h
  | some l =>
    cases hr : douglas m fuel tol plane (pts.drop (worst_dist_i m pts)) false with
    | none => simp [hl, hr] at h
    | some rr =>
      simp only [hl, hr, Option.some.injEq] at h
      subst h
      simp

/-- C5 (zero tolerance), counterexample: on the collinear points (0,0,0),
(5,0,0), (10,0,0) with tolerance 0 the outermost call returns the two end
points only; no descriptor is positioned at the input point (5,0,0). -/
theorem douglas_zero_drops_collinear :
    douglas libmQ 3 (Flt.fin 0) Plane.G17 straight3 true
        = some [Move.ofPoint (pt 0 0 0), Move.ofPoint (pt 10 0 0)]
      ∧ pt 5 0 0 ∈ straight3
      ∧ ¬ ∃ mv ∈ [Move.ofPoint (pt 0 0 0), Move.ofPoint (pt 10 0 0)], mv.pos = pt 5 0 0 := by
  refine ⟨by decide!, by decide!, by decide!⟩

theorem ofPoint_pos (p : Point3f) : (Move.ofPoint p).pos = p := rfl

/-- C5 (zero tolerance), amended: with tolerance 0 the outermost call
returns on every non-empty range; every descriptor it returns is the plain
descriptor (no mode, no centre, all axes) of a point of the range, so the
Arc outcome never occurs; the first descriptor is the first point and the
last descriptor the last point; when the worst chord deviation is positive
the point where it is attained is emitted; and when no chord deviation is
positive (a range of at least two points) the result is exactly the two end
points, so interior points of such a range are not emitted. -/
theorem douglas_zero_tolerance (m : Libm) (h0 : m.sqrt 0 = 0) (plane : Plane)
    (pts : List Point3f) (hne : pts ≠ []) :
    ∃ r, douglas m pts.length (Flt.fin 0) plane pts true = some r
      ∧ (∀ mv ∈ r, ∃ p ∈ pts, mv = Move.ofPoint p)
      ∧ r.head? = some (Move.ofPoint (front pts))
      ∧ r.getLast? = some (Move.ofPoint (back pts))
      ∧ (Flt.gt (worst_dist m pts) (Flt.fin 0) = true →
          Move.ofPoint (nth pts (worst_dist_i m pts)) ∈ r)
      ∧ (2 ≤ pts.length → Flt.gt (worst_dist m pts) (Flt.fin 0) = false →
          r = [Move.ofPoint (front pts), Move.ofPoint (back pts)]) := by
  obtain ⟨r, hr⟩ := douglas_returns m h0 0 (le_refl 0) plane pts.length pts true hne (le_refl _)
  have hall := douglas_zero_points m plane pts.length pts true r hr
  obtain ⟨⟨a, ha, hapos, -⟩, ⟨b, hb, hbpos, -⟩⟩ :=
    douglas_endpoints_aux m plane pts pts.length (Flt.fin 0) r hr
  have harc := arcTest_nonpos m plane pts 0 (le_refl 0)
  obtain ⟨k, hk⟩ : ∃ k, pts.length = k + 1 :=
    ⟨pts.length - 1, by have := List.length_pos.mpr hne; omega⟩
  refine ⟨r, hr, hall, ?_, ?_, ?_, ?_⟩
  · obtain ⟨p, -, hp⟩ := hall a (List.mem_of_mem_head? ha)
    rw [ha, hp, ← hapos, hp, ofPoint_pos]
  · obtain ⟨p, -, hp⟩ := hall b (List.mem_of_mem_getLast? hb)
    rw [hb, hp, ← hbpos, hp, ofPoint_pos]
  · intro hgt
    have h2 : 2 ≤ pts.length := by
      have := split_interior m h0 0 (le_refl 0) pts hgt
      omega
    rw [hk] at hr
    exact douglas_split_mem m k _ plane pts true r h2 harc hgt hr
  · intro h2 hgt
    rw [hk, douglas_straight m k _ plane pts true h2 harc hgt] at hr
    simpa using hr.symm

/-- The statement of `douglas_zero_tolerance` at the points (0,0,0),
(4,0,3), (0,0,4), (10,0,0) in plane 17, where the worst chord deviation 4 is
attained at index 2. -/
theorem douglas_zero_tolerance_witness :
    (libmQ.sqrt 0 = 0 ∧ zigzag ≠ []
        ∧ Flt.gt (worst_dist libmQ zigzag) (Flt.fin 0) = true)
      ∧ ∃ r, douglas libmQ zigzag.length (Flt.fin 0) Plane.G17 zigzag true = some r
        ∧ (∀ mv ∈ r, ∃ p ∈ zigzag, mv = Move.ofPoint p)
        ∧ r.head? = some (Move.ofPoint (front zigzag))
        ∧ r.getLast? = some (Move.ofPoint (back zigzag))
        ∧ (Flt.gt (worst_dist libmQ zigzag) (Flt.fin 0) = true →
            Move.ofPoint (nth zigzag (worst_dist_i libmQ zigzag)) ∈ r)
        ∧ (2 ≤ zigzag.length → Flt.gt (worst_dist libmQ zigzag) (Flt.fin 0) = false →
            r = [Move.ofPoint (front zigzag), Move.ofPoint (back zigzag)]) :=
  ⟨⟨by decide!, by decide, by decide!⟩,
    douglas_zero_tolerance libmQ (by decide!) Plane.G17 zigzag (by decide)⟩

/-- C6 (Split outcome) evaluated on the points (0,0,0), (4,0,3), (0,0,4),
(10,0,0) in plane 17 with tolerance 1/10: the Arc test fails, the worst
chord deviation exceeds the tolerance and is attained at index s = 2; the
outermost call returns (0,0,0), (0,0,4), (10,0,0), which is the
concatenation built from the recursive results on the ranges before index s
(split point excluded) and from index s on; the concatenation built from
the results on the ranges up to and including index s and from index s on
is (0,0,0), (0,0,0), (4,0,3), (0,0,4), (10,0,0) instead. -/
theorem douglas_split_zigzag :
    arcTest libmQ (Flt.fin (1 / 10)) Plane.G17 zigzag = false
      ∧ Flt.gt (worst_dist libmQ zigzag) (Flt.fin (1 / 10)) = true
      ∧ worst_dist_i libmQ zigzag = 2
      ∧ douglas libmQ 4 (Flt.fin (1 / 10)) Plane.G17 zigzag true
          = some [Move.ofPoint (pt 0 0 0), Move.ofPoint (pt 0 0 4), Move.ofPoint (pt 10 0 0)]
      ∧ (match douglas libmQ 3 (Flt.fin (1 / 10)) Plane.G17 (zigzag.take 2) false,
            douglas libmQ 3 (Flt.fin (1 / 10)) Plane.G17 (zigzag.drop 2) false with
          | some l, some r =>
            some ([Move.ofPoint (front zigzag)] ++ l ++ [Move.ofPoint (nth zigzag 2)] ++ r
              ++ [Move.ofPoint (back zigzag)])
          | _, _ => none)
          = some [Move.ofPoint (pt 0 0 0), Move.ofPoint (pt 0 0 4), Move.ofPoint (pt 10 0 0)]
      ∧ (match douglas libmQ 3 (Flt.fin (1 / 10)) Plane.G17 (zigzag.take (2 + 1)) false,
            douglas libmQ 3 (Flt.fin (1 / 10)) Plane.G17 (zigzag.drop 2) false with
          | some l, some r =>
            some ([Move.ofPoint (front zigzag)] ++ l ++ [Move.ofPoint (nth zigzag 2)] ++ r
              ++ [Move.ofPoint (back zigzag)])
          | _, _ => none)
          = some [Move.ofPoint (pt 0 0 0), Move.ofPoint (pt 0 0 0), Move.ofPoint (pt 4 0 3),
              Move.ofPoint (pt 0 0 4), Move.ofPoint (pt 10 0 0)] := by
  refine ⟨by decide!, by decide!, by decide!, by decide!, by decide!, by decide!⟩

/-- C7 (Arc outcome): for every range of at least two points whose worst arc
deviation is below the tolerance and below the worst chord deviation,
`douglas` returns exactly two descriptors whatever the `first` flag: the
plain descriptor of the first point, and the descriptor of the last point
with mode G03 when `arc_dir` (negated for plane 18) reports
counter-clockwise and G02 otherwise, and with the centre annotation made of
the offsets of the centre from the first point in the plane, lettered I/J
for plane 17, I/K for plane 18 and J/K for plane 19. -/
theorem douglas_arc_outcome (m : Libm) (fuel : Nat) (tol : Flt) (plane : Plane)
    (pts : List Point3f) (first : Bool) (hlen : 2 ≤ pts.length)
    (htol : Flt.lt (worst_arc_dist m plane pts) tol = true)
    (hchord : Flt.lt (worst_arc_dist m plane pts) (worst_dist m pts) = true) :
    douglas m (fuel + 1) tol plane pts first
      = some [
          { x := (front pts).x, y := (front pts).y, z := (front pts).z,
            nx := true, ny := true, nz := true, gc := "", center := [] },
          { x := (back pts).x, y := (back pts).y, z := (back pts).z,
            nx := true, ny := true, nz := true,
            gc :=
              if (if plane = Plane.G18
                  then !arc_dir m plane (arc_cr m plane pts) (front pts)
                    (nth pts (arc_i m plane pts)) (back pts)
                  else arc_dir m plane (arc_cr m plane pts) (front pts)
                    (nth pts (arc_i m plane pts)) (back pts)) = true
              then "G03" else "G02",
            center :=
              match plane with
              | Plane.G17 =>
                [Tok.lit " I", Tok.num ((arc_cr m plane pts).x - (front pts).x),
                  Tok.lit " J", Tok.num ((arc_cr m plane pts).y - (front pts).y)]
              | Plane.G18 =>
                [Tok.lit " I", Tok.num ((arc_cr m plane pts).x - (front pts).x),
                  Tok.lit " K", Tok.num ((arc_cr m plane pts).y - (front pts).z)]
              | Plane.G19 =>
                [Tok.lit " J", Tok.num ((arc_cr m plane pts).x - (front pts).y),
                  Tok.lit " K", Tok.num ((arc_cr m plane pts).y - (front pts).z)] }] := by
  have harc : arcTest m tol plane pts = true := by
    unfold arcTest
    rw [htol, hchord]
    rfl
  rw [douglas_arc m fuel tol plane pts first hlen harc]
  cases plane <;> rfl

/-- The statement of `douglas_arc_outcome` at the points (25,0,0), (24,7,0),
(20,16,0), (0,25,0) in plane 17 with tolerance 2, as an interior call: the
result is the first point and the last point tagged G03 with the centre
offsets I -25, J 0. -/
theorem douglas_arc_outcome_witness :
    (2 ≤ arcPts.length
        ∧ Flt.lt (worst_arc_dist libmQ Plane.G17 arcPts) (Flt.fin 2) = true
        ∧ Flt.lt (worst_arc_dist libmQ Plane.G17 arcPts) (worst_dist libmQ arcPts) = true)
      ∧ douglas libmQ 1 (Flt.fin 2) Plane.G17 arcPts false
        = some [Move.ofPoint (pt 25 0 0),
            ((Move.ofPoint (pt 0 25 0)).GC "G03").Center
              [Tok.lit " I", Tok.num (Flt.fin (-25)), Tok.lit " J", Tok.num (Flt.fin 0)]] :=
  ⟨⟨by decide, by decide!, by decide!⟩,
    (douglas_arc_outcome libmQ 0 (Flt.fin 2) Plane.G17 arcPts false (by decide) (by decide!)
      (by decide!)).trans (by decide!)⟩

/-! ## The move emitter -/

theorem Flt.ne_of_ne (v last : Flt) (h : Flt.ne v last = true) (hv : Flt.isnan v = false) :
    v ≠ last := by
  intro hEq
  subst hEq
  cases v with
  | nan => simp at hv
  | fin a => simp [Flt.ne] at h

theorem axisWord_cases (letter : String) (v last : Flt) :
    Gcode.axisWord letter v last = []
      ∨ (Gcode.axisWord letter v last = [Tok.lit letter, Tok.num v] ∧ v ≠ last) := by
  unfold Gcode.axisWord
  split
  · rename_i h
    simp only [Bool.and_eq_true, Bool.not_eq_true', Bool.not_eq_eq_eq_not, Bool.not_true] at h
    exact Or.inr ⟨rfl, Flt.ne_of_ne v last h.2 h.1.1⟩
  · exact Or.inl rfl

theorem textEmpty_nil : textEmpty [] = true := rfl

theorem textEmpty_num (l1 l2 : List Tok) (v : Flt) :
    textEmpty (l1 ++ Tok.num v :: l2) = false := by
  simp [textEmpty]

/-- The text built by `move_common` is empty only when no axis word was
added to it. -/
theorem textEmpty_words (a b c : String) (x lx y ly z lz : Flt) :
    textEmpty (Gcode.axisWord a x lx ++ Gcode.axisWord b y ly ++ Gcode.axisWord c z lz)
      = decide (Gcode.axisWord a x lx ++ Gcode.axisWord b y ly ++ Gcode.axisWord c z lz = []) := by
  rcases axisWord_cases a x lx with h1 | ⟨h1, -⟩ <;>
  rcases axisWord_cases b y ly with h2 | ⟨h2, -⟩ <;>
  rcases axisWord_cases c z lz with h3 | ⟨h3, -⟩ <;>
  simp [h1, h2, h3, textEmpty]

/-- C9 (deduplicating writer): `move_common` builds its line from three
optional axis words; the word of an axis, when present, is the axis letter
followed by the resolved value (the value of the descriptor, or the last
emitted value when the axis is unspecified), and it is present only when
that value differs from the last emitted one.  When no axis word is present
nothing is written and the cached mode is unchanged.  Otherwise exactly one
line is written: the mode word, present exactly when the requested mode
differs from the cached one, followed by the axis words; the requested mode
becomes the cached mode.  Hence no written line lacks an axis word. -/
theorem move_common_dedup (g : Gcode) (move : Move) (gc : String) :
    ∃ wx wy wz : List Tok,
      (wx = [] ∨ (wx = [Tok.lit " X", Tok.num (if move.nx then move.x else g.m_lastx)]
          ∧ (if move.nx then move.x else g.m_lastx) ≠ g.m_lastx))
      ∧ (wy = [] ∨ (wy = [Tok.lit " Y", Tok.num (if move.ny then move.y else g.m_lasty)]
          ∧ (if move.ny then move.y else g.m_lasty) ≠ g.m_lasty))
      ∧ (wz = [] ∨ (wz = [Tok.lit " Z", Tok.num (if move.nz then move.z else g.m_lastz)]
          ∧ (if move.nz then move.z else g.m_lastz) ≠ g.m_lastz))
      ∧ (wx ++ wy ++ wz = [] →
          (g.move_common move gc).m_of = g.m_of
            ∧ (g.move_common move gc).m_lastgc = g.m_lastgc)
      ∧ (wx ++ wy ++ wz ≠ [] →
          (g.move_common move gc).m_of
              = g.m_of ++ [(if gc ≠ g.m_lastgc then [Tok.lit gc] else []) ++ (wx ++ wy ++ wz)]
            ∧ (g.move_common move gc).m_lastgc = gc) := by
  refine ⟨Gcode.axisWord " X" (if move.nx then move.x else g.m_lastx) g.m_lastx,
    Gcode.axisWord " Y" (if move.ny then move.y else g.m_lasty) g.m_lasty,
    Gcode.axisWord " Z" (if move.nz then move.z else g.m_lastz) g.m_lastz,
    axisWord_cases _ _ _, axisWord_cases _ _ _, axisWord_cases _ _ _, ?_, ?_⟩
  · intro hnil
    unfold Gcode.move_common
    simp only [textEmpty_words, hnil, decide_True, Bool.not_true]
    exact ⟨rfl, rfl⟩
  · intro hne
    unfold Gcode.move_common
    simp only [textEmpty_words, hne, decide_False, Bool.not_false, if_true]
    by_cases hgc : gc = g.m_lastgc
    · simp [hgc]
    · simp [hgc]

theorem worst_dist_pair (m : Libm) (h0 : m.sqrt 0 = 0) (p q : Point3f) :
    (worst_dist m [p, q]).nanOrZero := by
  have hf : front [p, q] = p := rfl
  have hb : back [p, q] = q := rfl
  have hi : worst_dist_i m [p, q] < 2 := by
    unfold worst_dist_i d_v
    simp only [List.map, max_element, max_element_from]
    split <;> decide
  unfold worst_dist
  rw [d_v_getD m [p, q] _ hi, hf, hb]
  have hcases : worst_dist_i m [p, q] = 0 ∨ worst_dist_i m [p, q] = 1 := by omega
  rcases hcases with h | h
  · rw [h]
    exact dist_lseg_first m h0 p q
  · rw [h]
    exact dist_lseg_last m h0 p q

/-- A range of two points is never split or turned into an arc when the
tolerance is at least 0: the outermost call returns its two points. -/
theorem douglas_pair (m : Libm) (h0 : m.sqrt 0 = 0) (t : ℚ) (ht : 0 ≤ t) (fuel : Nat)
    (plane : Plane) (p q : Point3f) :
    douglas m (fuel + 1) (Flt.fin t) plane [p, q] true
      = some [Move.ofPoint p, Move.ofPoint q] := by
  have hgt : Flt.gt (worst_dist m [p, q]) (Flt.fin t) = false :=
    Flt.nanOrZero_not_gt _ (worst_dist_pair m h0 p q) t ht
  have harc : arcTest m (Flt.fin t) plane [p, q] = false := by
    unfold arcTest
    rcases worst_dist_pair m h0 p q with h | h
    · rw [h]
      simp
    · rw [h, worst_arc_dist_not_lt m plane [p, q] 0 (le_refl 0)]
      simp
  rw [douglas_straight m fuel _ plane [p, q] true (by simp) harc hgt]
  rfl

theorem flush_single (m : Libm) (g : Gcode) (p : Point3f) (hc : g.cuts = [p]) :
    g.flush m = some { (g.emit (Move.ofPoint p)) with cuts := [] } := by
  unfold Gcode.flush Gcode.flushMoves
  rw [hc]
  simp [douglas_single]

theorem flush_pair (m : Libm) (h0 : m.sqrt 0 = 0) (t : ℚ) (ht : 0 ≤ t) (g : Gcode)
    (p q : Point3f) (hc : g.cuts = [p, q]) (htol : g.m_tolerance = Flt.fin t)
    (hpq : p.eq q = false) :
    g.flush m = some { ((g.emit (Move.ofPoint p)).emit (Move.ofPoint q)) with cuts := [] } := by
  unfold Gcode.flush Gcode.flushMoves
  rw [hc, htol]
  have hf : front [p, q] = p := rfl
  have hb : back [p, q] = q := rfl
  simp [hf, hb, hpq, douglas_pair m h0 t ht]

/-- C10 (emitter dedup example): from an emitter with an empty buffer whose
last emitted position is (1,2,3), with any tolerance at least 0, any plane
and any cached mode, the calls cut(1,2,3), cut(1,2,5), flush() all return
and together write exactly one line: the mode word G01 when the cached mode
is not G01, followed by the Z word with value 5 and by nothing else. -/
theorem emitter_dedup_example (m : Libm) (h0 : m.sqrt 0 = 0) (t : ℚ) (ht : 0 ≤ t)
    (g : Gcode) (hc : g.cuts = []) (hx : g.m_lastx = Flt.fin 1) (hy : g.m_lasty = Flt.fin 2)
    (hz : g.m_lastz = Flt.fin 3) (htol : g.m_tolerance = Flt.fin t) :
    ∃ g1 g2 g3, g.cut m (Move.ofPoint (pt 1 2 3)) = some g1
      ∧ g1.cut m (Move.ofPoint (pt 1 2 5)) = some g2
      ∧ g2.flush m = some g3
      ∧ g3.m_of = g.m_of
          ++ [(if "G01" ≠ g.m_lastgc then [Tok.lit "G01"] else [])
            ++ [Tok.lit " Z", Tok.num (Flt.fin 5)]] := by
  obtain ⟨lx, ly, lz, lgc, hh, sh, tol, sp, plane, out, units, cuts⟩ := g
  simp only at hc hx hy hz htol
  subst hc hx hy hz htol
  have hnot : ¬ t < 0 := not_lt.mpr ht
  have hcut1 : Gcode.cut m ⟨Flt.fin 1, Flt.fin 2, Flt.fin 3, lgc, hh, sh, Flt.fin t, sp, plane,
      out, units, []⟩ (Move.ofPoint (pt 1 2 3))
      = some ⟨Flt.fin 1, Flt.fin 2, Flt.fin 3, lgc, hh, sh, Flt.fin t, sp, plane,
      out, units, [pt 1 2 3]⟩ := by
    simp [Gcode.cut, Move.ofPoint, pt, hnot]
  by_cases h2 : t < 2
  · have hfl1 : Gcode.flush m ⟨Flt.fin 1, Flt.fin 2, Flt.fin 3, lgc, hh, sh, Flt.fin t, sp,
        plane, out, units, [pt 1 2 3]⟩
        = some ⟨Flt.fin 1, Flt.fin 2, Flt.fin 3, lgc, hh, sh, Flt.fin t, sp, plane,
        out, units, []⟩ := by
      rw [flush_single m _ (pt 1 2 3) rfl]
      simp [Gcode.emit, Gcode.move_common, Gcode.axisWord, Gcode.axisLast, Move.ofPoint, pt,
        textEmpty, Flt.ne]
    have hcut2 : Gcode.cut m ⟨Flt.fin 1, Flt.fin 2, Flt.fin 3, lgc, hh, sh, Flt.fin t, sp,
        plane, out, units, [pt 1 2 3]⟩ (Move.ofPoint (pt 1 2 5))
        = some ⟨Flt.fin 1, Flt.fin 2, Flt.fin 3, lgc, hh, sh, Flt.fin t, sp, plane,
        out, units, [pt 1 2 5]⟩ := by
      have habs : |(3 : ℚ) - 5| = 2 := by norm_num [abs_of_neg]
      simp only [pt] at hfl1
      simp [Gcode.cut, Move.ofPoint, pt, back, hnot, habs, h2, hfl1]
    refine ⟨_, _, _, hcut1, hcut2, flush_single m _ (pt 1 2 5) rfl, ?_⟩
    by_cases hgc : lgc = "G01"
    · simp [Gcode.emit, Gcode.move_common, Gcode.axisWord, Gcode.axisLast, Move.ofPoint, pt,
        textEmpty, Flt.ne, hgc]
    · have hgc2 : ¬ "G01" = lgc := fun h => hgc h.symm
      simp [Gcode.emit, Gcode.move_common, Gcode.axisWord, Gcode.axisLast, Move.ofPoint, pt,
        textEmpty, Flt.ne, hgc2]
  · have hcut2 : Gcode.cut m ⟨Flt.fin 1, Flt.fin 2, Flt.fin 3, lgc, hh, sh, Flt.fin t, sp,
        plane, out, units, [pt 1 2 3]⟩ (Move.ofPoint (pt 1 2 5))
        = some ⟨Flt.fin 1, Flt.fin 2, Flt.fin 3, lgc, hh, sh, Flt.fin t, sp, plane,
        out, units, [pt 1 2 3, pt 1 2 5]⟩ := by
      have habs : |(3 : ℚ) - 5| = 2 := by norm_num [abs_of_neg]
      simp [Gcode.cut, Move.ofPoint, pt, back, hnot, habs, h2]
    refine ⟨_, _, _, hcut1, hcut2,
      flush_pair m h0 t ht _ (pt 1 2 3) (pt 1 2 5) rfl rfl (by decide!), ?_⟩
    by_cases hgc : lgc = "G01"
    · simp [Gcode.emit, Gcode.move_common, Gcode.axisWord, Gcode.axisLast, Move.ofPoint, pt,
        textEmpty, Flt.ne, hgc]
    · have hgc2 : ¬ "G01" = lgc := fun h => hgc h.symm
      simp [Gcode.emit, Gcode.move_common, Gcode.axisWord, Gcode.axisLast, Move.ofPoint, pt,
        textEmpty, Flt.ne, hgc2]

/-- The statement of `emitter_dedup_example` at the emitter `emitter123`
(tolerance 1/1000, plane 17, no cached mode). -/
theorem emitter_dedup_example_witness :
    (libmQ.sqrt 0 = 0 ∧ (0 : ℚ) ≤ 1 / 1000 ∧ emitter123.cuts = []
        ∧ emitter123.m_lastx = Flt.fin 1 ∧ emitter123.m_lasty = Flt.fin 2
        ∧ emitter123.m_lastz = Flt.fin 3 ∧ emitter123.m_tolerance = Flt.fin (1 / 1000))
      ∧ ∃ g1 g2 g3, emitter123.cut libmQ (Move.ofPoint (pt 1 2 3)) = some g1
        ∧ g1.cut libmQ (Move.ofPoint (pt 1 2 5)) = some g2
        ∧ g2.flush libmQ = some g3
        ∧ g3.m_of = emitter123.m_of
            ++ [(if "G01" ≠ emitter123.m_lastgc then [Tok.lit "G01"] else [])
              ++ [Tok.lit " Z", Tok.num (Flt.fin 5)]] :=
  ⟨⟨by decide!, by norm_num, rfl, rfl, rfl, rfl, rfl⟩,
    emitter_dedup_example libmQ (by decide!) (1 / 1000) (by norm_num) emitter123
      rfl rfl rfl rfl rfl⟩

/-! ## Soundness of the recursion bound and of the index arithmetic -/

/-- A result of `douglas` does not depend on the recursion bound: a larger
bound gives the same result. -/
theorem douglas_fuel_mono (m : Libm) (tol : Flt) (plane : Plane) :
    ∀ (fuel : Nat) (pts : List Point3f) (first : Bool) (r : List Move),
      douglas m fuel tol plane pts first = some r →
      ∀ fuel2, fuel ≤ fuel2 → douglas m fuel2 tol plane pts first = some r := by
  intro fuel
  induction fuel with
  | zero =>
    intro pts first r h
    simp [douglas] at h
  | succ fuel ih =>
    intro pts first r h fuel2 hle
    obtain ⟨k, rfl⟩ : ∃ k, fuel2 = k + 1 := ⟨fuel2 - 1, by omega⟩
    have hk : fuel ≤ k := by omega
    by_cases hz : pts.length = 0
    · simp [douglas, hz] at h
    by_cases h1 : pts.length = 1
    · obtain ⟨p, rfl⟩ := List.length_eq_one.mp h1
      rw [douglas_single] at h
      rw [douglas_single]
      exact h
    have h2 : 2 ≤ pts.length := by omega
    cases harc : arcTest m tol plane pts with
    | true =>
      rw [douglas_arc m fuel tol plane pts first h2 harc] at h
      rw [douglas_arc m k tol plane pts first h2 harc]
      exact h
    | false =>
      cases hgt : Flt.gt (worst_dist m pts) tol with
      | false =>
        rw [douglas_straight m fuel tol plane pts first h2 harc hgt] at h
        rw [douglas_straight m k tol plane pts first h2 harc hgt]
        exact h
      | true =>
        rw [douglas_split m fuel tol plane pts first h2 harc hgt] at h
        rw [douglas_split m k tol plane pts first h2 harc hgt]
        cases hl : douglas m fuel tol plane (pts.take (worst_dist_i m pts)) false with
        | none => simp [hl] at h
        | some l =>
          cases hr : douglas m fuel tol plane (pts.drop (worst_dist_i m pts)) false with
          | none => simp [hl, hr] at h
          | some rr =>
            rw [ih _ false l hl k hk, ih _ false rr hr k hk]
            simpa [hl, hr] using h

@[simp] theorem Libm.fhypot_nan_left (m : Libm) (a : Flt) : m.fhypot Flt.nan a = Flt.nan := rfl

@[simp] theorem Libm.fhypot_nan_right (m : Libm) (a : Flt) : m.fhypot a Flt.nan = Flt.nan := by
  cases a <;> rfl

/-- The circumradius of a triangle whose first two corners coincide is the
sentinel `FLT_MAX`, or NaN when a coordinate is NaN. -/
theorem rad1_same (m : Libm) (x1 y1 x3 y3 : Flt) :
    rad1 m x1 y1 x1 y1 x3 y3 = FLT_MAX ∨ rad1 m x1 y1 x1 y1 x3 y3 = Flt.nan := by
  cases x1 <;> cases y1 <;> cases x3 <;> cases y3 <;> simp [rad1, FLT_EPSILON, FLT_MAX]

/-- The subtraction in `arc_i` never goes below zero: when the minimum
radius is below `FLT_MAX` it is not attained at index 0. -/
theorem min_element_r_v_pos (m : Libm) (plane : Plane) (pts : List Point3f)
    (h : Flt.lt (min_radius m plane pts) FLT_MAX = true) :
    0 < min_element (r_v m plane pts) := by
  by_contra hz
  have h0 : min_element (r_v m plane pts) = 0 := by omega
  unfold min_radius at h
  rw [h0] at h
  cases pts with
  | nil => simp [r_v, fmin, FLT_MAX] at h
  | cons p ps =>
    have hr : (r_v m plane (p :: ps)).getD 0 Flt.nan
        = arc_rad m plane p p (back (p :: ps)) := rfl
    rw [hr] at h
    have hsame : arc_rad m plane p p (back (p :: ps)) = FLT_MAX
        ∨ arc_rad m plane p p (back (p :: ps)) = Flt.nan := by
      cases plane <;> exact rad1_same m _ _ _ _
    rcases hsame with hs | hs <;> rw [hs] at h <;> simp [fmin, FLT_MAX] at h

/-! ## The move emitter: buffer, flush and the flush-first operations -/

theorem move_common_cuts (g : Gcode) (mv : Move) (gc : String) :
    (g.move_common mv gc).cuts = g.cuts := by
  unfold Gcode.move_common
  simp only
  split_ifs <;> rfl

theorem move_common_plane (g : Gcode) (mv : Move) (gc : String) :
    (g.move_common mv gc).plane = g.plane := by
  unfold Gcode.move_common
  simp only
  split_ifs <;> rfl

/-- What `move_common` writes: nothing, with the cached mode kept, or one
line that holds an axis word; the line starts with the mode word when the
mode differs from the cached one. -/
theorem move_common_out (g : Gcode) (mv : Move) (gc : String) :
    ((g.move_common mv gc).m_of = g.m_of ∧ (g.move_common mv gc).m_lastgc = g.m_lastgc)
      ∨ (∃ s, s ≠ [] ∧ (g.move_common mv gc).m_of
          = g.m_of ++ [(if gc ≠ g.m_lastgc then [Tok.lit gc] else []) ++ s]) := by
  by_cases hnil : Gcode.axisWord " X" (if mv.nx then mv.x else g.m_lastx) g.m_lastx
      ++ Gcode.axisWord " Y" (if mv.ny then mv.y else g.m_lasty) g.m_lasty
      ++ Gcode.axisWord " Z" (if mv.nz then mv.z else g.m_lastz) g.m_lastz = []
  · left
    unfold Gcode.move_common
    simp only [textEmpty_words, hnil, decide_True, Bool.not_true]
    exact ⟨rfl, rfl⟩
  · right
    refine ⟨_, hnil, ?_⟩
    unfold Gcode.move_common
    simp only [textEmpty_words, hnil, decide_False, Bool.not_false, if_true]
    by_cases hgc : gc = g.m_lastgc
    · simp [hgc]
    · simp [hgc]

theorem emit_cuts (g : Gcode) (t : Move) : (g.emit t).cuts = g.cuts := by
  unfold Gcode.emit
  split
  · rfl
  · exact move_common_cuts g t "G01"

theorem emit_plane (g : Gcode) (t : Move) : (g.emit t).plane = g.plane := by
  unfold Gcode.emit
  split
  · rfl
  · exact move_common_plane g t "G01"

theorem emit_extends (g : Gcode) (t : Move) : ∃ lines, (g.emit t).m_of = g.m_of ++ lines := by
  unfold Gcode.emit
  split
  · exact ⟨_, rfl⟩
  · rcases move_common_out g t "G01" with ⟨h, -⟩ | ⟨s, -, h⟩
    · exact ⟨[], by rw [h, List.append_nil]⟩
    · exact ⟨_, h⟩

theorem foldl_emit_extends (ts : List Move) :
    ∀ g : Gcode, ∃ lines, (ts.foldl Gcode.emit g).m_of = g.m_of ++ lines := by
  induction ts with
  | nil => exact fun g => ⟨[], (List.append_nil _).symm⟩
  | cons t ts ih =>
    intro g
    obtain ⟨l1, h1⟩ := emit_extends g t
    obtain ⟨l2, h2⟩ := ih (g.emit t)
    exact ⟨l1 ++ l2, by rw [List.foldl_cons, h2, h1, List.append_assoc]⟩

theorem flush_cuts (m : Libm) (g g1 : Gcode) (h : g.flush m = some g1) : g1.cuts = [] := by
  unfold Gcode.flush at h
  split at h
  · split at h
    · cases h
      rfl
    · cases h
  · cases h
    rfl

theorem flush_empty (m : Libm) (g : Gcode) (hc : g.cuts = []) : g.flush m = some g := by
  obtain ⟨lx, ly, lz, lgc, hh, sh, tol, sp, plane, out, units, cuts⟩ := g
  simp only at hc
  subst hc
  simp [Gcode.flush]

theorem flush_extends (m : Libm) (g g1 : Gcode) (h : g.flush m = some g1) :
    ∃ lines, g1.m_of = g.m_of ++ lines := by
  unfold Gcode.flush at h
  split at h
  · split at h
    · cases h
      exact foldl_emit_extends _ g
    · cases h
  · cases h
    exact ⟨[], (List.append_nil _).symm⟩

/-- With a tolerance at least 0 every call of `flush` returns. -/
theorem flush_returns (m : Libm) (h0 : m.sqrt 0 = 0) (t : ℚ) (ht : 0 ≤ t) (g : Gcode)
    (htol : g.m_tolerance = Flt.fin t) : ∃ g1, g.flush m = some g1 := by
  unfold Gcode.flush
  by_cases hz : g.cuts.length = 0
  · simp [hz]
  · have hne : g.cuts ≠ [] := fun hnil => hz (by rw [hnil]; rfl)
    have hmoves : ∃ mv, g.flushMoves m = some mv := by
      unfold Gcode.flushMoves
      rw [htol]
      split
      · rename_i hclosed
        simp only [Bool.and_eq_true, decide_eq_true_eq] at hclosed
        have hlen := hclosed.2
        have hhalf : g.cuts.length >>> 1 = g.cuts.length / 2 := by
          rw [Nat.shiftRight_eq_div_pow]
        obtain ⟨a, ha⟩ := douglas_returns m h0 t ht g.plane (g.cuts.length >>> 1)
          (g.cuts.take (g.cuts.length >>> 1)) true
          (by
            intro hnil
            have hl := congrArg List.length hnil
            rw [List.length_take, List.length_nil, hhalf] at hl
            omega)
          (by rw [List.length_take]; omega)
        obtain ⟨b, hb⟩ := douglas_returns m h0 t ht g.plane
          (g.cuts.length - g.cuts.length >>> 1)
          (g.cuts.drop (g.cuts.length >>> 1)) true
          (by
            intro hnil
            have hl := congrArg List.length hnil
            rw [List.length_drop, List.length_nil, hhalf] at hl
            omega)
          (by rw [List.length_drop])
        simp only [ha, hb]
        exact ⟨_, rfl⟩
      · exact douglas_returns m h0 t ht g.plane g.cuts.length g.cuts true hne (le_refl _)
    obtain ⟨mv, hmv⟩ := hmoves
    simp [hz, hmv]

/-- C11 (append): `cut` resolves the unspecified axes of the candidate
against the buffer tail, or against the last emitted position when the
buffer is empty, to a point p.  When no axis difference exceeds the
tolerance nothing is written and the buffer becomes the old buffer followed
by p.  When one does, the old buffer is flushed and the result is the
flushed state with the buffer [p] (and `cut` returns exactly when that
flush returns).  In both cases the buffer ends up non-empty with p as its
tail; with a tolerance at least 0 `cut` always returns. -/
theorem cut_append (m : Libm) (g : Gcode) (move : Move) :
    let l : Point3f := if g.cuts = [] then ⟨g.m_lastx, g.m_lasty, g.m_lastz⟩ else back g.cuts
    let p : Point3f := ⟨if move.nx then move.x else l.x, if move.ny then move.y else l.y,
      if move.nz then move.z else l.z⟩
    let exceeds : Bool := Flt.gt (Flt.abs (l.x - p.x)) g.m_tolerance
      || Flt.gt (Flt.abs (l.y - p.y)) g.m_tolerance
      || Flt.gt (Flt.abs (l.z - p.z)) g.m_tolerance
    (exceeds = false → g.cut m move = some { g with cuts := g.cuts ++ [p] })
      ∧ (exceeds = true → ∀ g1, g.flush m = some g1 →
          g.cut m move = some { g1 with cuts := [p] })
      ∧ (exceeds = true → g.flush m = none → g.cut m move = none)
      ∧ (∀ g2, g.cut m move = some g2 → g2.cuts ≠ [] ∧ g2.cuts.getLast? = some p)
      ∧ (∀ t : ℚ, 0 ≤ t → g.m_tolerance = Flt.fin t → m.sqrt 0 = 0 →
          ∃ g2, g.cut m move = some g2) := by
  intro l p exceeds
  have hl : (if g.cuts.length ≠ 0 then back g.cuts
      else (⟨g.m_lastx, g.m_lasty, g.m_lastz⟩ : Point3f)) = l := by
    by_cases hc : g.cuts = []
    · simp [l, hc]
    · have : g.cuts.length ≠ 0 := fun h => hc (List.length_eq_zero.mp h)
      simp [l, hc, this]
  have hcut : g.cut m move
      = match (if exceeds then g.flush m else some g) with
        | some g1 => some { g1 with cuts := g1.cuts ++ [p] }
        | none => none := by
    unfold Gcode.cut
    simp only [hl]
  have hno : exceeds = false → g.cut m move = some { g with cuts := g.cuts ++ [p] } := by
    intro he
    rw [hcut, he]
    rfl
  have hyes : exceeds = true → ∀ g1, g.flush m = some g1 →
      g.cut m move = some { g1 with cuts := [p] } := by
    intro he g1 hf
    rw [hcut, he]
    simp only [if_true, hf, flush_cuts m g g1 hf, List.nil_append]
  have hnone : exceeds = true → g.flush m = none → g.cut m move = none := by
    intro he hf
    rw [hcut, he]
    simp only [if_true, hf]
  refine ⟨hno, hyes, hnone, ?_, ?_⟩
  · intro g2 h2
    cases he : exceeds with
    | false =>
      rw [hno he] at h2
      cases h2
      exact ⟨by simp, List.getLast?_concat _⟩
    | true =>
      cases hf : g.flush m with
      | none =>
        rw [hnone he hf] at h2
        cases h2
      | some g1 =>
        rw [hyes he g1 hf] at h2
        cases h2
        exact ⟨by simp, rfl⟩
  · intro t ht htol h0
    cases he : exceeds with
    | false => exact ⟨_, hno he⟩
    | true =>
      obtain ⟨g1, hf⟩ := flush_returns m h0 t ht g htol
      exact ⟨_, hyes he g1 hf⟩

/-- The statement of `cut_append` at the emitter `emitter123` and the move
to (1,2,5): the Z difference 2 exceeds the tolerance 1/1000, the (empty)
buffer is flushed and becomes [(1,2,5)]. -/
theorem cut_append_witness :
    ((0 : ℚ) ≤ 1 / 1000 ∧ emitter123.m_tolerance = Flt.fin (1 / 1000) ∧ libmQ.sqrt 0 = 0
        ∧ emitter123.flush libmQ = some emitter123)
      ∧ emitter123.cut libmQ (Move.ofPoint (pt 1 2 5))
        = some { emitter123 with cuts := [pt 1 2 5] }
      ∧ ∃ g2, emitter123.cut libmQ (Move.ofPoint (pt 1 2 5)) = some g2 :=
  ⟨⟨by norm_num, rfl, by decide!, flush_empty libmQ emitter123 rfl⟩,
    (cut_append libmQ emitter123 (Move.ofPoint (pt 1 2 5))).2.1 (by decide!) emitter123
      (flush_empty libmQ emitter123 rfl),
    (cut_append libmQ emitter123 (Move.ofPoint (pt 1 2 5))).2.2.2.2 (1 / 1000) (by norm_num)
      rfl (by decide!)⟩

/-- C12 (flush drains and is idempotent): whenever `flush` returns, the
buffer of the resulting state is empty and a second `flush` returns that
same state, so nothing more is written; on an empty buffer `flush` returns
the state unchanged (no output, same last position, cached mode and plane);
with a tolerance at least 0 `flush` always returns. -/
theorem flush_drains (m : Libm) (g : Gcode) :
    (∀ g1, g.flush m = some g1 → g1.cuts = [] ∧ g1.flush m = some g1)
      ∧ (g.cuts = [] → g.flush m = some g)
      ∧ (∀ t : ℚ, 0 ≤ t → g.m_tolerance = Flt.fin t → m.sqrt 0 = 0 →
          ∃ g1, g.flush m = some g1) :=
  ⟨fun g1 h => ⟨flush_cuts m g g1 h, flush_empty m g1 (flush_cuts m g g1 h)⟩,
    fun hc => flush_empty m g hc,
    fun t ht htol h0 => flush_returns m h0 t ht g htol⟩

/-- The statement of `flush_drains` at the emitter `emitter123` holding the
buffer [(1,2,5)]: the flush writes the line G01 Z5 and empties the buffer,
and a second flush changes nothing. -/
theorem flush_drains_witness :
    ((0 : ℚ) ≤ 1 / 1000 ∧ libmQ.sqrt 0 = 0)
      ∧ (∃ g1, Gcode.flush libmQ { emitter123 with cuts := [pt 1 2 5] } = some g1)
      ∧ (∀ g1, Gcode.flush libmQ { emitter123 with cuts := [pt 1 2 5] } = some g1 →
          g1.cuts = [] ∧ g1.flush libmQ = some g1) :=
  ⟨⟨by norm_num, by decide!⟩,
    (flush_drains libmQ { emitter123 with cuts := [pt 1 2 5] }).2.2 (1 / 1000) (by norm_num)
      rfl (by decide!),
    (flush_drains libmQ { emitter123 with cuts := [pt 1 2 5] }).1⟩

/-- C14 (flush-first ordering): each of `set_feed`, `rapid`, `home`,
`safety` and `end` returns exactly when `flush` returns on the same state,
and its result is the operation's own write applied to the flushed state:
the feed line, the `move_common` call with mode G00, or that call followed
by the line M2.  The flushed state has an empty buffer and its output is
the old output followed by the lines of the flush; the operation's own
lines come after them and the buffer stays empty. -/
theorem flush_first (m : Libm) (g : Gcode) :
    (∀ f, g.set_feed m f
        = (g.flush m).map (fun g1 => { g1 with m_of := g1.m_of ++ [[Tok.lit "F", Tok.num f]] }))
      ∧ (∀ move, g.rapid m move = (g.flush m).map (fun g1 => g1.move_common move "G00"))
      ∧ g.home m = (g.flush m).map (fun g1 =>
          g1.move_common ((Move.empty.Z g1.m_homeheight).Center [Tok.lit " (home height)"])
            "G00")
      ∧ g.safety m = (g.flush m).map (fun g1 =>
          g1.move_common ((Move.empty.Z g1.m_safetyheight).Center [Tok.lit " (safety height)"])
            "G00")
      ∧ g.finish m = (g.flush m).map (fun g1 =>
          { (g1.move_common
              ((Move.empty.Z g1.m_safetyheight).Center [Tok.lit " (safety height)"]) "G00")
            with m_of := (g1.move_common
              ((Move.empty.Z g1.m_safetyheight).Center [Tok.lit " (safety height)"])
                "G00").m_of ++ [[Tok.lit "M2"]] })
      ∧ (∀ g1, g.flush m = some g1 →
          g1.cuts = [] ∧ (∃ lines, g1.m_of = g.m_of ++ lines)
            ∧ ∀ move gc, (g1.move_common move gc).cuts = []
              ∧ ∃ own, (g1.move_common move gc).m_of = g1.m_of ++ own) := by
  have hrapid : ∀ (g0 : Gcode) (move : Move),
      g0.rapid m move = (g0.flush m).map (fun g1 => g1.move_common move "G00") := by
    intro g0 move
    unfold Gcode.rapid
    cases g0.flush m <;> rfl
  have hsafety : ∀ g0 : Gcode, g0.safety m = (g0.flush m).map (fun g1 =>
      g1.move_common ((Move.empty.Z g1.m_safetyheight).Center [Tok.lit " (safety height)"])
        "G00") := by
    intro g0
    unfold Gcode.safety
    cases hf : g0.flush m with
    | none => rfl
    | some g1 =>
      simp only [Option.map_some']
      rw [hrapid, flush_empty m g1 (flush_cuts m g0 g1 hf)]
      rfl
  refine ⟨?_, hrapid g, ?_, hsafety g, ?_, ?_⟩
  · intro f
    unfold Gcode.set_feed
    cases g.flush m <;> rfl
  · unfold Gcode.home
    cases hf : g.flush m with
    | none => rfl
    | some g1 =>
      simp only [Option.map_some']
      rw [hrapid, flush_empty m g1 (flush_cuts m g g1 hf)]
      rfl
  · unfold Gcode.finish
    cases hf : g.flush m with
    | none => rfl
    | some g1 =>
      simp only [Option.map_some']
      rw [hsafety, flush_empty m g1 (flush_cuts m g g1 hf)]
      rfl
  · intro g1 hf
    refine ⟨flush_cuts m g g1 hf, flush_extends m g g1 hf, fun move gc => ⟨?_, ?_⟩⟩
    · rw [move_common_cuts, flush_cuts m g g1 hf]
    · rcases move_common_out g1 move gc with ⟨h, -⟩ | ⟨s, -, h⟩
      · exact ⟨[], by rw [h, List.append_nil]⟩
      · exact ⟨_, h⟩

/-- The lines written by straight descriptors after the cached mode was
cleared: none with the cached mode still empty, or lines of which the
first starts with the mode word G01. -/
theorem straight_after_clear (ts : List Move) (hts : ∀ s ∈ ts, textEmpty s.center = true) :
    ∀ g0 : Gcode, g0.m_lastgc = "" →
      ((ts.foldl Gcode.emit g0).m_of = g0.m_of ∧ (ts.foldl Gcode.emit g0).m_lastgc = "")
        ∨ (∃ words rest, words ≠ [] ∧ (ts.foldl Gcode.emit g0).m_of
            = g0.m_of ++ (Tok.lit "G01" :: words) :: rest) := by
  induction ts with
  | nil => exact fun g0 h => Or.inl ⟨rfl, h⟩
  | cons t ts ih =>
    intro g0 hgc
    have ht : textEmpty t.center = true := hts t (List.mem_cons_self _ _)
    have hemit : g0.emit t = g0.move_common t "G01" := by
      unfold Gcode.emit
      simp [ht]
    rw [List.foldl_cons, hemit]
    rcases move_common_out g0 t "G01" with ⟨hout, hmode⟩ | ⟨s, hs, hout⟩
    · rcases ih (fun s hs => hts s (List.mem_cons_of_mem _ hs)) (g0.move_common t "G01")
        (by rw [hmode, hgc]) with ⟨h1, h2⟩ | ⟨words, rest, hw, h1⟩
      · exact Or.inl ⟨by rw [h1, hout], h2⟩
      · exact Or.inr ⟨words, rest, hw, by rw [h1, hout]⟩
    · obtain ⟨lines, hl⟩ := foldl_emit_extends ts (g0.move_common t "G01")
      refine Or.inr ⟨s, lines, hs, ?_⟩
      rw [hl, hout, hgc]
      simp

/-- C15 (arc descriptors restate everything): for a descriptor that carries
a centre annotation the loop of `flush` writes one line made of the mode of
the descriptor, the X, Y and Z words with the values of the descriptor and
the annotation, whatever the last emitted position; it sets the last
emitted position to the position of the descriptor and clears the cached
mode.  Straight descriptors processed after it then either write nothing,
or the first line they write starts with the mode word G01. -/
theorem arc_restates (g : Gcode) (t : Move) (hc : textEmpty t.center = false) :
    g.emit t = { g with
        m_of := g.m_of ++ [[Tok.lit t.gc, Tok.lit " X", Tok.num t.x, Tok.lit " Y",
          Tok.num t.y, Tok.lit " Z", Tok.num t.z] ++ t.center],
        m_lastgc := "", m_lastx := t.x, m_lasty := t.y, m_lastz := t.z }
      ∧ ∀ ts : List Move, (∀ s ∈ ts, textEmpty s.center = true) →
          ((ts.foldl Gcode.emit (g.emit t)).m_of = (g.emit t).m_of
              ∧ (ts.foldl Gcode.emit (g.emit t)).m_lastgc = "")
            ∨ (∃ words rest, words ≠ [] ∧ (ts.foldl Gcode.emit (g.emit t)).m_of
                = (g.emit t).m_of ++ (Tok.lit "G01" :: words) :: rest) := by
  have hemit : g.emit t = { g with
      m_of := g.m_of ++ [[Tok.lit t.gc, Tok.lit " X", Tok.num t.x, Tok.lit " Y",
        Tok.num t.y, Tok.lit " Z", Tok.num t.z] ++ t.center],
      m_lastgc := "", m_lastx := t.x, m_lasty := t.y, m_lastz := t.z } := by
    unfold Gcode.emit
    simp [hc]
  refine ⟨hemit, fun ts hts => straight_after_clear ts hts (g.emit t) ?_⟩
  rw [hemit]

/-- The statement of `arc_restates` at the emitter `emitter123`, the arc
descriptor `arcMove` and a following straight descriptor at (0,25,5), which
writes the line G01 Z5. -/
theorem arc_restates_witness :
    textEmpty arcMove.center = false
      ∧ (emitter123.emit arcMove).m_of
        = [[Tok.lit "G03", Tok.lit " X", Tok.num (Flt.fin 0), Tok.lit " Y",
            Tok.num (Flt.fin 25), Tok.lit " Z", Tok.num (Flt.fin 0), Tok.lit " I",
            Tok.num (Flt.fin (-25)), Tok.lit " J", Tok.num (Flt.fin 0)]]
      ∧ (([Move.ofPoint (pt 0 25 5)].foldl Gcode.emit (emitter123.emit arcMove)).m_of
            = (emitter123.emit arcMove).m_of
          ∧ ([Move.ofPoint (pt 0 25 5)].foldl Gcode.emit (emitter123.emit arcMove)).m_lastgc = ""
        ∨ ∃ words rest, words ≠ []
          ∧ ([Move.ofPoint (pt 0 25 5)].foldl Gcode.emit (emitter123.emit arcMove)).m_of
            = (emitter123.emit arcMove).m_of ++ (Tok.lit "G01" :: words) :: rest) :=
  ⟨by decide,
    (congrArg Gcode.m_of (arc_restates emitter123 arcMove (by decide)).1).trans (by decide!),
    (arc_restates emitter123 arcMove (by decide)).2 [Move.ofPoint (pt 0 25 5)]
      (by decide)⟩

theorem front_drop (pts : List Point3f) (k : Nat) : front (pts.drop k) = nth pts k := by
  unfold front nth
  induction pts generalizing k with
  | nil => simp
  | cons p ps ih =>
    cases k with
    | zero => rfl
    | succ k => exact ih k

theorem back_take (pts : List Point3f) (k : Nat) (hk : 0 < k) (hle : k ≤ pts.length) :
    back (pts.take k) = nth pts (k - 1) := by
  rw [back_eq_nth, List.length_take, Nat.min_eq_left hle]
  unfold nth
  rw [List.getD_eq_getElem _ _ (by rw [List.length_take]; omega),
    List.getD_eq_getElem _ _ (by omega)]
  simp

/-- C13 (closed-path bisection), counterexample: for the closed buffer
(0,0,0), (1,0,0), (1,0,0), (0,0,0) with tolerance 1 the moves `flush`
processes are (0,0,0), (1,0,0), (1,0,0), (0,0,0): the midpoint (1,0,0)
occurs as two consecutive descriptors.  For the closed buffer `closedLoop`
of six distinct steps the moves are (0,0,0), (1,0,1), (0,0,1), (0,0,1),
(1,1,1/2), (0,0,0): the midpoint (0,0,1) again occurs twice in a row. -/
theorem flush_repeats_midpoint :
    (front closedRepeat).eq (back closedRepeat) = true
      ∧ nth closedRepeat (closedRepeat.length / 2) = pt 1 0 0
      ∧ (emitterTol1 closedRepeat).flushMoves libmQ
        = some [Move.ofPoint (pt 0 0 0), Move.ofPoint (pt 1 0 0), Move.ofPoint (pt 1 0 0),
            Move.ofPoint (pt 0 0 0)]
      ∧ (front closedLoop).eq (back closedLoop) = true
      ∧ nth closedLoop (closedLoop.length / 2) = pt 0 0 1
      ∧ (emitterTol1 closedLoop).flushMoves libmQ
        = some [Move.ofPoint (pt 0 0 0), Move.ofPoint (pt 1 0 1), Move.ofPoint (pt 0 0 1),
            Move.ofPoint (pt 0 0 1), Move.ofPoint (pt 1 1 (1 / 2)), Move.ofPoint (pt 0 0 0)] := by
  refine ⟨by decide!, by decide!, by decide!, by decide!, by decide!, by decide!⟩

/-- C13 (closed-path bisection), amended: for every buffer of n > 1 points
whose first and last points are equal, the moves `flush` processes are the
result of the outermost `douglas` call on cuts[0..half) followed by the
result of the outermost call on cuts[half..n), half = floor(n/2), and
`flush` folds its loop over them in that order and empties the buffer.  The
two halves partition the buffer; the first result ends with a descriptor at
cuts[half-1] and the second begins with a descriptor at cuts[half], so the
two descriptors at the seam are at the same position only when the buffer
itself holds equal points there.  With a tolerance at least 0 both calls
return. -/
theorem flush_bisects (m : Libm) (g : Gcode) (hn : 1 < g.cuts.length)
    (hclosed : (front g.cuts).eq (back g.cuts) = true) :
    g.flushMoves m
        = (match douglas m (g.cuts.length / 2) g.m_tolerance g.plane
              (g.cuts.take (g.cuts.length / 2)) true,
            douglas m (g.cuts.length - g.cuts.length / 2) g.m_tolerance g.plane
              (g.cuts.drop (g.cuts.length / 2)) true with
          | some a, some b => some (a ++ b)
          | _, _ => none)
      ∧ g.flush m
        = (g.flushMoves m).map (fun moves => { (moves.foldl Gcode.emit g) with cuts := [] })
      ∧ g.cuts.take (g.cuts.length / 2) ++ g.cuts.drop (g.cuts.length / 2) = g.cuts
      ∧ (∀ a b,
          douglas m (g.cuts.length / 2) g.m_tolerance g.plane
              (g.cuts.take (g.cuts.length / 2)) true = some a →
          douglas m (g.cuts.length - g.cuts.length / 2) g.m_tolerance g.plane
              (g.cuts.drop (g.cuts.length / 2)) true = some b →
          ∃ x y, a.getLast? = some x ∧ x.pos = nth g.cuts (g.cuts.length / 2 - 1)
            ∧ b.head? = some y ∧ y.pos = nth g.cuts (g.cuts.length / 2)
            ∧ (x.pos = y.pos ↔
                nth g.cuts (g.cuts.length / 2 - 1) = nth g.cuts (g.cuts.length / 2)))
      ∧ (∀ t : ℚ, 0 ≤ t → g.m_tolerance = Flt.fin t → m.sqrt 0 = 0 →
          ∃ moves, g.flushMoves m = some moves) := by
  have hhalf : g.cuts.length >>> 1 = g.cuts.length / 2 := by
    rw [Nat.shiftRight_eq_div_pow]
  have hmoves : g.flushMoves m
      = (match douglas m (g.cuts.length / 2) g.m_tolerance g.plane
            (g.cuts.take (g.cuts.length / 2)) true,
          douglas m (g.cuts.length - g.cuts.length / 2) g.m_tolerance g.plane
            (g.cuts.drop (g.cuts.length / 2)) true with
        | some a, some b => some (a ++ b)
        | _, _ => none) := by
    unfold Gcode.flushMoves
    simp only [hclosed, hn, gt_iff_lt, decide_True, Bool.and_self, if_true, hhalf]
  have hz : g.cuts.length ≠ 0 := by omega
  refine ⟨hmoves, ?_, List.take_append_drop _ _, ?_, ?_⟩
  · unfold Gcode.flush
    simp only [hz, ne_eq, not_false_eq_true, if_true]
    cases g.flushMoves m <;> rfl
  · intro a b ha hb
    obtain ⟨-, x, hx, hxpos, -⟩ := douglas_endpoints_aux m g.plane _ _ _ a ha
    obtain ⟨⟨y, hy, hypos, -⟩, -⟩ := douglas_endpoints_aux m g.plane _ _ _ b hb
    rw [back_take g.cuts _ (by omega) (by omega)] at hxpos
    rw [front_drop] at hypos
    exact ⟨x, y, hx, hxpos, hy, hypos, by rw [hxpos, hypos]⟩
  · intro t ht htol h0
    rw [hmoves, htol]
    obtain ⟨a, ha⟩ := douglas_returns m h0 t ht g.plane (g.cuts.length / 2)
      (g.cuts.take (g.cuts.length / 2)) true
      (by
        intro hnil
        have hl := congrArg List.length hnil
        rw [List.length_take, List.length_nil] at hl
        omega)
      (by rw [List.length_take]; omega)
    obtain ⟨b, hb⟩ := douglas_returns m h0 t ht g.plane
      (g.cuts.length - g.cuts.length / 2)
      (g.cuts.drop (g.cuts.length / 2)) true
      (by
        intro hnil
        have hl := congrArg List.length hnil
        rw [List.length_drop, List.length_nil] at hl
        omega)
      (by rw [List.length_drop])
    simp only [ha, hb]
    exact ⟨_, rfl⟩

/-- The statement of `flush_bisects` at the emitter with tolerance 1 and the
closed buffer `closedLoop`: the halves are its first three and its last
three points. -/
theorem flush_bisects_witness :
    (1 < (emitterTol1 closedLoop).cuts.length
        ∧ (front (emitterTol1 closedLoop).cuts).eq (back (emitterTol1 closedLoop).cuts) = true)
      ∧ (emitterTol1 closedLoop).flushMoves libmQ
        = (match douglas libmQ 3 (Flt.fin 1) Plane.G17 [pt 0 0 0, pt 1 0 0, pt 1 0 1] true,
            douglas libmQ 3 (Flt.fin 1) Plane.G17 [pt 0 0 1, pt 1 1 (1 / 2), pt 0 0 0] true with
          | some a, some b => some (a ++ b)
          | _, _ => none)
      ∧ ∃ moves, (emitterTol1 closedLoop).flushMoves libmQ = some moves :=
  ⟨⟨by decide, by decide!⟩,
    (flush_bisects libmQ (emitterTol1 closedLoop) (by decide) (by decide!)).1,
    (flush_bisects libmQ (emitterTol1 closedLoop) (by decide) (by decide!)).2.2.2.2 1
      (by norm_num) rfl (by decide!)⟩

/-! ## Geometry kernel: circumcentre, circumradius, distance to a segment -/

/-- C16 (circumcentre) evaluated on two triangles whose double area is at
least `FLT_EPSILON`.  For (0,0), (1,1), (2,0) (double area 2, circumcentre
(1,0) at squared distance 1 from each corner) `cent1` returns the sentinel
(`FLT_MAX`, `FLT_MAX`).  For (0,0), (2,1), (3,0) (double area 3,
circumcentre (3/2,-1/2) at squared distance 5/2 from each corner) `cent1`
returns (27/2,-9/2), whose squared distances to the corners are 405/2,
325/2 and 261/2.  In both cases `cross` evaluates the denominator with a
plus sign (0 and 1) where `rad1` has a minus sign (2 and 3). -/
theorem cent1_not_circumcentre :
    Flt.lt (Flt.abs (((0 : Flt) - 1) * (1 - 0) - (1 - 2) * (0 - 1))) FLT_EPSILON = false
      ∧ cent1 0 0 1 1 2 0 = ⟨FLT_MAX, FLT_MAX⟩
      ∧ (sqDist2 ⟨1, 0⟩ 0 0 = 1 ∧ sqDist2 ⟨1, 0⟩ 1 1 = 1 ∧ sqDist2 ⟨1, 0⟩ 2 0 = 1)
      ∧ (Point2f.cross ⟨0 - 1, 0 - 1⟩ ⟨1 - 2, 1 - 0⟩ = 0)
      ∧ Flt.lt (Flt.abs (((0 : Flt) - 2) * (1 - 0) - (2 - 3) * (0 - 1))) FLT_EPSILON = false
      ∧ cent1 0 0 2 1 3 0 = ⟨Flt.fin (27 / 2), Flt.fin (-9 / 2)⟩
      ∧ (sqDist2 ⟨Flt.fin (3 / 2), Flt.fin (-1 / 2)⟩ 0 0 = Flt.fin (5 / 2)
        ∧ sqDist2 ⟨Flt.fin (3 / 2), Flt.fin (-1 / 2)⟩ 2 1 = Flt.fin (5 / 2)
        ∧ sqDist2 ⟨Flt.fin (3 / 2), Flt.fin (-1 / 2)⟩ 3 0 = Flt.fin (5 / 2))
      ∧ (sqDist2 (cent1 0 0 2 1 3 0) 0 0 = Flt.fin (405 / 2)
        ∧ sqDist2 (cent1 0 0 2 1 3 0) 2 1 = Flt.fin (325 / 2)
        ∧ sqDist2 (cent1 0 0 2 1 3 0) 3 0 = Flt.fin (261 / 2))
      ∧ (Point2f.cross ⟨0 - 2, 0 - 1⟩ ⟨2 - 3, 1 - 0⟩ = Flt.fin (-1)) := by
  refine ⟨by decide!, by decide!, ⟨by decide!, by decide!, by decide!⟩, by decide!, by decide!,
    by decide!, ⟨by decide!, by decide!, by decide!⟩, ⟨by decide!, by decide!, by decide!⟩,
    by decide!⟩

theorem rad1_fin (m : Libm) (x1 y1 x2 y2 x3 y3 : ℚ) :
    rad1 m (Flt.fin x1) (Flt.fin y1) (Flt.fin x2) (Flt.fin y2) (Flt.fin x3) (Flt.fin y3)
      = if |(x1 - x2) * (y2 - y3) - (x2 - x3) * (y1 - y2)| < 1 / 8388608 then FLT_MAX
        else Flt.fin (m.hypot (x1 - x2) (y1 - y2) * m.hypot (x2 - x3) (y2 - y3)
          * m.hypot (x3 - x1) (y3 - y1) / 2
          / |(x1 - x2) * (y2 - y3) - (x2 - x3) * (y1 - y2)|) := by
  have he : (1 : ℚ) / 8388608 = 8388608⁻¹ := by norm_num
  rw [he]
  by_cases h : |(x1 - x2) * (y2 - y3) - (x2 - x3) * (y1 - y2)| < 8388608⁻¹
  · simp [rad1, FLT_EPSILON, Libm.fhypot, h]
  · have hne2 : ¬ (x1 - x2) * (y2 - y3) - (x2 - x3) * (y1 - y2) = 0 := by
      intro h0
      rw [h0, abs_zero] at h
      norm_num at h
    simp [rad1, FLT_EPSILON, Libm.fhypot, h, hne2]

/-- The circle through the origin, `(a, b)` and `(c, d)`, in squared form:
the point with the coordinates below is at squared distance
`(a^2+b^2) (c^2+d^2) ((a-c)^2+(b-d)^2) / (4 (a d - b c)^2)` from each of
the three points. -/
theorem circumcircle_identity (a b c d : ℚ) (hD : a * d - b * c ≠ 0) :
    ((d * (a ^ 2 + b ^ 2) - b * (c ^ 2 + d ^ 2)) / (2 * (a * d - b * c))) ^ 2
        + ((a * (c ^ 2 + d ^ 2) - c * (a ^ 2 + b ^ 2)) / (2 * (a * d - b * c))) ^ 2
      = (a ^ 2 + b ^ 2) * (c ^ 2 + d ^ 2) * ((a - c) ^ 2 + (b - d) ^ 2)
        / (4 * (a * d - b * c) ^ 2)
    ∧ ((d * (a ^ 2 + b ^ 2) - b * (c ^ 2 + d ^ 2)) / (2 * (a * d - b * c)) - a) ^ 2
        + ((a * (c ^ 2 + d ^ 2) - c * (a ^ 2 + b ^ 2)) / (2 * (a * d - b * c)) - b) ^ 2
      = (a ^ 2 + b ^ 2) * (c ^ 2 + d ^ 2) * ((a - c) ^ 2 + (b - d) ^ 2)
        / (4 * (a * d - b * c) ^ 2)
    ∧ ((d * (a ^ 2 + b ^ 2) - b * (c ^ 2 + d ^ 2)) / (2 * (a * d - b * c)) - c) ^ 2
        + ((a * (c ^ 2 + d ^ 2) - c * (a ^ 2 + b ^ 2)) / (2 * (a * d - b * c)) - d) ^ 2
      = (a ^ 2 + b ^ 2) * (c ^ 2 + d ^ 2) * ((a - c) ^ 2 + (b - d) ^ 2)
        / (4 * (a * d - b * c) ^ 2) := by
  refine ⟨?_, ?_, ?_⟩ <;>
  · field_simp
    ring

/-- No rational number has square 2: no value a math library over the
rationals returns is the length of the diagonal of the unit square. -/
theorem sq_ne_two (q : ℚ) : q ^ 2 ≠ 2 := by
  intro h
  have h2 : Real.sqrt 2 = |(q : ℝ)| := by
    rw [← Real.sqrt_sq_eq_abs]
    congr 1
    exact_mod_cast h.symm
  exact irrational_sqrt_two ⟨|q|, by rw [h2]; push_cast; rfl⟩

theorem sum_sq_eq_zero (u v w : ℚ) (h : u * u + v * v + w * w = 0) : u = 0 ∧ v = 0 ∧ w = 0 := by
  have hu := mul_self_nonneg u
  have hv := mul_self_nonneg v
  have hw := mul_self_nonneg w
  refine ⟨?_, ?_, ?_⟩
  · exact mul_self_eq_zero.mp (by linarith)
  · exact mul_self_eq_zero.mp (by linarith)
  · exact mul_self_eq_zero.mp (by linarith)

/-- The value of `dist_lseg` on finite points with distinct end points:
the library square root of the squared distance at the clamped projection
parameter. -/
theorem dist_lseg_fin (m : Libm) (ax ay az bx bY bz px py pz : ℚ)
    (hd : (bx - ax) * (bx - ax) + (bY - ay) * (bY - ay) + (bz - az) * (bz - az) ≠ 0) :
    dist_lseg m (pt ax ay az) (pt bx bY bz) (pt px py pz)
      = Flt.fin (m.sqrt (sqDistAt ax ay az bx bY bz px py pz
          (min 1 (max 0 (((bx - ax) * (px - ax) + (bY - ay) * (py - ay)
            + (bz - az) * (pz - az))
            / ((bx - ax) * (bx - ax) + (bY - ay) * (bY - ay) + (bz - az) * (bz - az))))))) := by
  generalize ht : ((bx - ax) * (px - ax) + (bY - ay) * (py - ay) + (bz - az) * (pz - az))
    / ((bx - ax) * (bx - ax) + (bY - ay) * (bY - ay) + (bz - az) * (bz - az)) = t
  have hsq : ∀ u : ℚ, sqDistAt ax ay az bx bY bz px py pz u
      = (px - ax - u * (bx - ax)) * (px - ax - u * (bx - ax))
        + (py - ay - u * (bY - ay)) * (py - ay - u * (bY - ay))
        + (pz - az - u * (bz - az)) * (pz - az - u * (bz - az)) := by
    intro u
    unfold sqDistAt
    ring
  have hnn : ∀ u : ℚ, ¬ (px - ax - u * (bx - ax)) * (px - ax - u * (bx - ax))
        + (py - ay - u * (bY - ay)) * (py - ay - u * (bY - ay))
        + (pz - az - u * (bz - az)) * (pz - az - u * (bz - az)) < 0 := by
    intro u
    have h1 := mul_self_nonneg (px - ax - u * (bx - ax))
    have h2 := mul_self_nonneg (py - ay - u * (bY - ay))
    have h3 := mul_self_nonneg (pz - az - u * (bz - az))
    linarith
  rw [hsq]
  unfold dist_lseg
  simp only [pt, Flt.fin_sub, Flt.fin_mul, Flt.fin_add, Flt.zero_def, Flt.one_def, Flt.eq_fin,
    hd, decide_False, Bool.false_eq_true, if_false, Flt.fin_div, ht, Flt.lt_fin, Flt.gt_fin]
  by_cases h0 : t < 0
  · have h1 : ¬ (1 : ℚ) < 0 := by norm_num
    have hm : min 1 (max 0 t) = 0 := by
      rw [max_eq_left (le_of_lt h0)]
      exact min_eq_right (by norm_num)
    simp only [h0, decide_True, if_true, Flt.gt_fin, h1, decide_False, Bool.false_eq_true,
      if_false, Flt.fin_mul, Flt.fin_sub, Flt.sq_fin, Flt.fin_add, Libm.fsqrt_fin, hnn, hm]
  · by_cases h1 : 1 < t
    · have hm : min 1 (max 0 t) = 1 := by
        rw [max_eq_right (le_of_not_lt h0)]
        exact min_eq_left (le_of_lt h1)
      simp only [h0, decide_False, Bool.false_eq_true, if_false, Flt.gt_fin, h1, decide_True,
        if_true, Flt.fin_mul, Flt.fin_sub, Flt.sq_fin, Flt.fin_add, Libm.fsqrt_fin, hnn, hm]
    · have hm : min 1 (max 0 t) = t := by
        rw [max_eq_right (le_of_not_lt h0)]
        exact min_eq_right (le_of_not_lt h1)
      simp only [h0, decide_False, Bool.false_eq_true, if_false, Flt.gt_fin, h1,
        Flt.fin_mul, Flt.fin_sub, Flt.sq_fin, Flt.fin_add, Libm.fsqrt_fin, hnn, hm]

/-- The clamped projection parameter minimises the squared distance over
the segment. -/
theorem sqDistAt_min (ax ay az bx bY bz px py pz t : ℚ) (ht0 : 0 ≤ t) (ht1 : t ≤ 1)
    (hd : (bx - ax) * (bx - ax) + (bY - ay) * (bY - ay) + (bz - az) * (bz - az) ≠ 0) :
    sqDistAt ax ay az bx bY bz px py pz
        (min 1 (max 0 (((bx - ax) * (px - ax) + (bY - ay) * (py - ay)
          + (bz - az) * (pz - az))
          / ((bx - ax) * (bx - ax) + (bY - ay) * (bY - ay) + (bz - az) * (bz - az)))))
      ≤ sqDistAt ax ay az bx bY bz px py pz t := by
  generalize hd2 : (bx - ax) * (bx - ax) + (bY - ay) * (bY - ay) + (bz - az) * (bz - az) = d2
    at hd
  generalize hdot : (bx - ax) * (px - ax) + (bY - ay) * (py - ay) + (bz - az) * (pz - az) = dot
  have hpos : 0 < d2 := by
    have h1 := mul_self_nonneg (bx - ax)
    have h2 := mul_self_nonneg (bY - ay)
    have h3 := mul_self_nonneg (bz - az)
    exact lt_of_le_of_ne (by rw [← hd2]; linarith) (Ne.symm hd)
  have hkey : ∀ u v : ℚ, sqDistAt ax ay az bx bY bz px py pz v
      - sqDistAt ax ay az bx bY bz px py pz u = (v - u) * ((v + u) * d2 - 2 * dot) := by
    intro u v
    unfold sqDistAt
    rw [← hd2, ← hdot]
    ring
  have hdot2 : dot = dot / d2 * d2 := by
    field_simp
  rw [← sub_nonneg, hkey]
  by_cases h0 : dot / d2 < 0
  · rw [max_eq_left (le_of_lt h0), min_eq_right (by norm_num : (0 : ℚ) ≤ 1)]
    have : 0 ≤ t * d2 - 2 * dot := by
      rw [hdot2]
      nlinarith [mul_nonneg ht0 (le_of_lt hpos), mul_pos (neg_pos.mpr h0) hpos]
    nlinarith [mul_nonneg ht0 this]
  · by_cases h1 : 1 < dot / d2
    · rw [max_eq_right (le_of_not_lt h0), min_eq_left (le_of_lt h1)]
      have : (t + 1) * d2 - 2 * dot ≤ 0 := by
        rw [hdot2]
        nlinarith [mul_pos (sub_pos.mpr h1) hpos, mul_nonneg (sub_nonneg.mpr ht1) (le_of_lt hpos)]
      nlinarith [mul_nonneg (sub_nonneg.mpr ht1) (neg_nonneg.mpr this)]
    · rw [max_eq_right (le_of_not_lt h0), min_eq_right (le_of_not_lt h1)]
      have : (t - dot / d2) * ((t + dot / d2) * d2 - 2 * dot)
          = d2 * (t - dot / d2) ^ 2 := by
        field_simp
        ring
      rw [this]
      exact mul_nonneg (le_of_lt hpos) (sq_nonneg _)

theorem one_quadrant_eq (plane : Plane) (c : Point2f) (p1 p2 p3 : Point3f) :
    one_quadrant plane c p1 p2 p3
      = one_quadrant_signs (signPair plane c p1) (signPair plane c p2) (signPair plane c p3) :=
  rfl

theorem sign_mem (v : Flt) : sign v ∈ signValues := by
  unfold sign signValues
  split
  · decide
  · split <;> decide

/-- The set logic of `one_quadrant`, checked on all 729 triples of sign
pairs. -/
theorem one_quadrant_signs_table :
    ∀ a1 ∈ signValues, ∀ b1 ∈ signValues, ∀ a2 ∈ signValues, ∀ b2 ∈ signValues,
    ∀ a3 ∈ signValues, ∀ b3 ∈ signValues,
      (one_quadrant_signs (a1, b1) (a2, b2) (a3, b3) = true ↔
        (((a1, b1) = (a2, b2) ∧ (a2, b2) = (a3, b3))
          ∨ ∃ d ∈ diagonals, ((a1, b1) = d ∨ (a2, b2) = d ∨ (a3, b3) = d)
            ∧ ∀ q ∈ [(a1, b1), (a2, b2), (a3, b3)], q = d ∨ borders q d)) := by
  decide

theorem diagonal_mem :
    ∀ a ∈ signValues, ∀ b ∈ signValues, diagonal (a, b) → (a, b) ∈ diagonals := by
  decide

theorem diagonal_of_mem : ∀ d ∈ diagonals, diagonal d := by
  decide

/-- C19 (quadrant consistency): with each of the three points classified by
its sign pair (the signs of its projected offsets from the centre),
`one_quadrant` returns true exactly when the three sign pairs are
identical, or some diagonal quadrant (both signs non-zero) occurs among
them and every sign pair is that quadrant or an axis-aligned pair bordering
it (one sign zero, the other equal to the sign of the quadrant); no second
diagonal quadrant can then occur. -/
theorem one_quadrant_spec (plane : Plane) (c : Point2f) (p1 p2 p3 : Point3f) :
    one_quadrant plane c p1 p2 p3 = true ↔
      ((signPair plane c p1 = signPair plane c p2 ∧ signPair plane c p2 = signPair plane c p3)
        ∨ ∃ d : Int × Int, diagonal d
          ∧ (signPair plane c p1 = d ∨ signPair plane c p2 = d ∨ signPair plane c p3 = d)
          ∧ ∀ q ∈ [signPair plane c p1, signPair plane c p2, signPair plane c p3],
              q = d ∨ borders q d) := by
  rw [one_quadrant_eq]
  have h1 : signPair plane c p1 = ((signPair plane c p1).1, (signPair plane c p1).2) := rfl
  have h2 : signPair plane c p2 = ((signPair plane c p2).1, (signPair plane c p2).2) := rfl
  have h3 : signPair plane c p3 = ((signPair plane c p3).1, (signPair plane c p3).2) := rfl
  have ha1 : (signPair plane c p1).1 ∈ signValues := sign_mem _
  have hb1 : (signPair plane c p1).2 ∈ signValues := sign_mem _
  have ha2 : (signPair plane c p2).1 ∈ signValues := sign_mem _
  have hb2 : (signPair plane c p2).2 ∈ signValues := sign_mem _
  have ha3 : (signPair plane c p3).1 ∈ signValues := sign_mem _
  have hb3 : (signPair plane c p3).2 ∈ signValues := sign_mem _
  have htab := one_quadrant_signs_table _ ha1 _ hb1 _ ha2 _ hb2 _ ha3 _ hb3
  rw [← h1, ← h2, ← h3] at htab
  rw [htab]
  constructor
  · rintro (h | ⟨d, hd, hocc, hall⟩)
    · exact Or.inl h
    · exact Or.inr ⟨d, diagonal_of_mem d hd, hocc, hall⟩
  · rintro (h | ⟨d, hd, hocc, hall⟩)
    · exact Or.inl h
    · refine Or.inr ⟨d, ?_, hocc, hall⟩
      rcases hocc with h | h | h
      · rw [← h] at hd ⊢
        exact diagonal_mem _ ha1 _ hb1 hd
      · rw [← h] at hd ⊢
        exact diagonal_mem _ ha2 _ hb2 hd
      · rw [← h] at hd ⊢
        exact diagonal_mem _ ha3 _ hb3 hd

/-- The loop of `arc_dir` adds the least number of full turns that brings
the end angle up to the mid angle. -/
theorem arc_dir_unwrap_spec (a : ℚ) :
    ∀ b : ℚ, ∃ k : ℕ, arc_dir_unwrap a b = b + 2 * PI * k ∧ a ≤ b + 2 * PI * k
      ∧ ∀ j : ℕ, j < k → b + 2 * PI * j < a := by
  intro b
  induction b using arc_dir_unwrap.induct a with
  | case1 x hx ih =>
    obtain ⟨k, hk, hle, hlt⟩ := ih
    refine ⟨k + 1, ?_, ?_, ?_⟩
    · rw [arc_dir_unwrap, if_pos hx, hk]
      push_cast
      ring
    · have he : x + 2 * PI * ((k + 1 : ℕ) : ℚ) = x + 2 * PI + 2 * PI * k := by
        push_cast
        ring
      rw [he]
      exact hle
    · intro j hj
      cases j with
      | zero => simpa using hx
      | succ j =>
        have he : x + 2 * PI * ((j + 1 : ℕ) : ℚ) = x + 2 * PI + 2 * PI * j := by
          push_cast
          ring
        rw [he]
        exact hlt j (by omega)
  | case2 x hx =>
    refine ⟨0, ?_, ?_, ?_⟩
    · rw [arc_dir_unwrap, if_neg hx]
      simp
    · simpa using hx
    · intro j hj
      omega

theorem arc_dir_fin (m : Libm) (plane : Plane) (xc yc x1 y1 z1 x2 y2 z2 x3 y3 z3 : ℚ) :
    arc_dir m plane ⟨Flt.fin xc, Flt.fin yc⟩ (pt x1 y1 z1) (pt x2 y2 z2) (pt x3 y3 z3)
      = decide (arc_dir_unwrap
          (if polarAngle m plane xc yc x2 y2 z2 < polarAngle m plane xc yc x1 y1 z1
            then polarAngle m plane xc yc x2 y2 z2 + 2 * PI
            else polarAngle m plane xc yc x2 y2 z2)
          (polarAngle m plane xc yc x3 y3 z3) < 2 * PI) := by
  cases plane <;>
  · simp only [arc_dir, get_pts, pt, polarAngle, Libm.fatan2, Flt.fin_sub, Flt.lt_fin,
      decide_eq_true_eq]
    split_ifs <;> simp only [Flt.fin_add, Flt.lt_fin]

/-- C20 (sweep direction), amended: on finite points, with the angles t1,
t2, t3 of p1, p2, p3 around the centre, t2 raised by one full turn 2 PI
when it is below t1, and t3 raised by the least number k of full turns
that brings it up to the raised t2, `arc_dir` returns true exactly when
the raised t3 itself is below 2 PI; the angle t1 is not subtracted. -/
theorem arc_dir_spec (m : Libm) (plane : Plane) (xc yc x1 y1 z1 x2 y2 z2 x3 y3 z3 : ℚ) :
    ∃ k : ℕ,
      (if polarAngle m plane xc yc x2 y2 z2 < polarAngle m plane xc yc x1 y1 z1
          then polarAngle m plane xc yc x2 y2 z2 + 2 * PI
          else polarAngle m plane xc yc x2 y2 z2)
        ≤ polarAngle m plane xc yc x3 y3 z3 + 2 * PI * k
      ∧ (∀ j : ℕ, j < k → polarAngle m plane xc yc x3 y3 z3 + 2 * PI * j
          < (if polarAngle m plane xc yc x2 y2 z2 < polarAngle m plane xc yc x1 y1 z1
              then polarAngle m plane xc yc x2 y2 z2 + 2 * PI
              else polarAngle m plane xc yc x2 y2 z2))
      ∧ (arc_dir m plane ⟨Flt.fin xc, Flt.fin yc⟩ (pt x1 y1 z1) (pt x2 y2 z2) (pt x3 y3 z3)
            = true
          ↔ polarAngle m plane xc yc x3 y3 z3 + 2 * PI * k < 2 * PI) := by
  obtain ⟨k, hk, hle, hlt⟩ := arc_dir_unwrap_spec
    (if polarAngle m plane xc yc x2 y2 z2 < polarAngle m plane xc yc x1 y1 z1
      then polarAngle m plane xc yc x2 y2 z2 + 2 * PI
      else polarAngle m plane xc yc x2 y2 z2)
    (polarAngle m plane xc yc x3 y3 z3)
  refine ⟨k, hle, hlt, ?_⟩
  rw [arc_dir_fin, hk, decide_eq_true_eq]

/-- C20 (sweep direction), counterexample: around the centre (0,0) of plane
17, for p1 = (0,-5), p2 = (5,0), p3 = (4,-3) the angles are t1 = -PI/2,
t2 = 0 and t3 < 0; t2 is not below t1, and one full turn is the least that
brings t3 up to t2.  `arc_dir` returns true although the unwrapped sweep
from p1 to p3, t3 + 2 PI - t1, is not below one full turn. -/
theorem arc_dir_ignores_start :
    arc_dir libmQ Plane.G17 ⟨Flt.fin 0, Flt.fin 0⟩ (pt 0 (-5) 0) (pt 5 0 0) (pt 4 (-3) 0) = true
      ∧ polarAngle libmQ Plane.G17 0 0 0 (-5) 0 = -(PI / 2)
      ∧ polarAngle libmQ Plane.G17 0 0 5 0 0 = 0
      ∧ polarAngle libmQ Plane.G17 0 0 4 (-3) 0 < 0
      ∧ ¬ (polarAngle libmQ Plane.G17 0 0 5 0 0 < polarAngle libmQ Plane.G17 0 0 0 (-5) 0)
      ∧ polarAngle libmQ Plane.G17 0 0 5 0 0 ≤ polarAngle libmQ Plane.G17 0 0 4 (-3) 0 + 2 * PI
      ∧ ¬ (polarAngle libmQ Plane.G17 0 0 4 (-3) 0 + 2 * PI
          - polarAngle libmQ Plane.G17 0 0 0 (-5) 0 < 2 * PI) := by
  refine ⟨by decide!, by decide!, by decide!, by decide!, by decide!, by decide!, by decide!⟩

/-! ## Degenerate guards and the arc candidate -/

/-- C21 (same degenerate guard) evaluated on two triples of points.  For
(0,0), (1,1), (2,0) `cent1` returns the sentinel (`FLT_MAX`, `FLT_MAX`)
while `rad1` takes its non-sentinel branch for every math library (its
denominator is 2) and returns a radius below 2 with the library `libmQ`.
For the collinear points (0,0), (1,1), (2,2) `rad1` returns the sentinel
`FLT_MAX` for every math library while `cent1` returns the point (0,0). -/
theorem cent1_rad1_guards_differ :
    cent1 0 0 1 1 2 0 = ⟨FLT_MAX, FLT_MAX⟩
      ∧ (∀ m : Libm, rad1 m 0 0 1 1 2 0
          = Flt.fin (m.hypot (0 - 1) (0 - 1) * m.hypot (1 - 2) (1 - 0) * m.hypot (2 - 0) (0 - 0)
              / 2 / 2))
      ∧ Flt.lt (rad1 libmQ 0 0 1 1 2 0) (Flt.fin 2) = true
      ∧ rad1 libmQ 0 0 1 1 2 0 ≠ FLT_MAX
      ∧ (∀ m : Libm, rad1 m 0 0 1 1 2 2 = FLT_MAX)
      ∧ cent1 0 0 1 1 2 2 = ⟨Flt.fin 0, Flt.fin 0⟩ := by
  refine ⟨by decide!, ?_, by decide!, by decide!, ?_, by decide!⟩
  · intro m
    simp only [Flt.zero_def, Flt.one_def, Flt.two_def]
    rw [rad1_fin]
    norm_num
  · intro m
    simp only [Flt.zero_def, Flt.one_def, Flt.two_def]
    rw [rad1_fin]
    norm_num

/-- The centre `douglas` uses when the minimum radius is below `FLT_MAX`:
that of the triangle through the point one index before the first point of
minimum radius. -/
theorem arc_cr_eq (m : Libm) (plane : Plane) (pts : List Point3f)
    (h : Flt.lt (min_radius m plane pts) FLT_MAX = true) :
    arc_cr m plane pts
      = arc_center plane (front pts) (nth pts (min_element (r_v m plane pts) - 1))
          (back pts) := by
  unfold arc_cr arc_i
  rw [if_pos h]

/-- C22 (arc candidate) evaluated on two ranges in plane 17.  For the three
points (25,0,0), (20,15,0), (0,25,0) of the circle of radius 25 around the
origin the minimum radius is below `FLT_MAX` and first attained at index 1,
`arc_i` is 0 and the centre `douglas` uses is the sentinel (`FLT_MAX`,
`FLT_MAX`), the `arc_center` of (first, first, last), while the
`arc_center` of (first, point of minimum radius, last) is (0,0).  For the
four points `arcPts` the minimum radius is first attained at index 2,
`arc_i` is 1 and the centre used is (0,0), the `arc_center` of the triangle
through the point at index 1, not that of the triangle through the point at
index 2. -/
theorem arc_candidate_off_by_one :
    (Flt.lt (min_radius libmQ Plane.G17 circ3) FLT_MAX = true
        ∧ min_element (r_v libmQ Plane.G17 circ3) = 1
        ∧ arc_i libmQ Plane.G17 circ3 = 0
        ∧ arc_cr libmQ Plane.G17 circ3 = ⟨FLT_MAX, FLT_MAX⟩
        ∧ arc_center Plane.G17 (front circ3) (nth circ3 1) (back circ3)
          = ⟨Flt.fin 0, Flt.fin 0⟩)
      ∧ (Flt.lt (min_radius libmQ Plane.G17 arcPts) FLT_MAX = true
        ∧ min_element (r_v libmQ Plane.G17 arcPts) = 2
        ∧ arc_i libmQ Plane.G17 arcPts = 1
        ∧ arc_cr libmQ Plane.G17 arcPts = ⟨Flt.fin 0, Flt.fin 0⟩
        ∧ arc_center Plane.G17 (front arcPts) (nth arcPts 1) (back arcPts)
          = ⟨Flt.fin 0, Flt.fin 0⟩
        ∧ arc_center Plane.G17 (front arcPts) (nth arcPts 2) (back arcPts)
          = ⟨Flt.fin (8525 / 10658), Flt.fin (8525 / 10658)⟩) := by
  refine ⟨⟨by decide!, by decide!, by decide!, by decide!, by decide!⟩,
    ⟨by decide!, by decide!, by decide!, by decide!, by decide!, by decide!⟩⟩

/-- C8 (quarter-circle example) evaluated on the 19 binary32 sample points
`quarterCircle` in plane 17 with tolerance 1/100.  Every coordinate is a
binary32 number.  The minimum radius is first attained at index 1, so
`arc_i` is 0 and the centre `douglas` uses is the `arc_center` of (first,
first, last), the sentinel (`FLT_MAX`, `FLT_MAX`), not a point near the
origin.  The Arc test fails, the worst chord deviation exceeds the
tolerance, and the outermost call takes the Split outcome: it returns 18
descriptors, not the two of the example. -/
theorem quarter_circle_split :
    (quarterCircle.length = 19 ∧ quarterCircle.all Point3f.binary32 = true)
      ∧ (Flt.lt (min_radius libmQ Plane.G17 quarterCircle) FLT_MAX = true
        ∧ min_element (r_v libmQ Plane.G17 quarterCircle) = 1
        ∧ arc_i libmQ Plane.G17 quarterCircle = 0
        ∧ arc_cr libmQ Plane.G17 quarterCircle = ⟨FLT_MAX, FLT_MAX⟩
        ∧ arc_cr libmQ Plane.G17 quarterCircle
          = arc_center Plane.G17 (front quarterCircle) (front quarterCircle)
              (back quarterCircle))
      ∧ (arcTest libmQ (Flt.fin (1 / 100)) Plane.G17 quarterCircle = false
        ∧ Flt.gt (worst_dist libmQ quarterCircle) (Flt.fin (1 / 100)) = true)
      ∧ (douglas libmQ 19 (Flt.fin (1 / 100)) Plane.G17 quarterCircle true).map List.length
        = some 18 := by
  refine ⟨⟨by decide, by decide!⟩, ⟨by decide!, by decide!, by decide!, by decide!, by decide!⟩,
    ⟨by decide!, by decide!⟩, by decide!⟩

/-! ## Order of the selected points -/

theorem nth_eq_getElem? (pts : List Point3f) (i : Nat) :
    nth pts i = (pts[i]?).getD nanPoint := by
  unfold nth
  exact List.getD_eq_getElem?_getD _ _ _

theorem nth_take (pts : List Point3f) (k i : Nat) (hi : i < k) :
    nth (pts.take k) i = nth pts i := by
  rw [nth_eq_getElem?, nth_eq_getElem?, List.getElem?_take_of_lt hi]

theorem nth_drop (pts : List Point3f) (k i : Nat) : nth (pts.drop k) i = nth pts (i + k) := by
  rw [nth_eq_getElem?, nth_eq_getElem?, List.getElem?_drop, Nat.add_comm]

theorem pairwise_append_bound (l1 l2 : List Nat) (b : Nat) (h1 : l1.Pairwise (· ≤ ·))
    (h2 : l2.Pairwise (· ≤ ·)) (hb1 : ∀ i ∈ l1, i ≤ b) (hb2 : ∀ j ∈ l2, b ≤ j) :
    (l1 ++ l2).Pairwise (· ≤ ·) :=
  List.pairwise_append.mpr ⟨h1, h2, fun i hi j hj => le_trans (hb1 i hi) (hb2 j hj)⟩

/-- The descriptors `douglas` returns are positioned at points of the range
taken at weakly increasing indices; for the outermost call the indices
start at 0 and end at the last index. -/
theorem douglas_indices (m : Libm) (tol : Flt) (plane : Plane) :
    ∀ (fuel : Nat) (pts : List Point3f) (first : Bool) (r : List Move),
      douglas m fuel tol plane pts first = some r →
      ∃ idx : List Nat, r.map Move.pos = idx.map (nth pts)
        ∧ idx.Pairwise (· ≤ ·)
        ∧ (∀ i ∈ idx, i < pts.length)
        ∧ (first = true → idx.head? = some 0 ∧ idx.getLast? = some (pts.length - 1)) := by
  intro fuel
  induction fuel with
  | zero =>
    intro pts first r h
    simp [douglas] at h
  | succ fuel ih =>
    intro pts first r h
    by_cases hz : pts.length = 0
    · simp [douglas, hz] at h
    have hb : back pts = nth pts (pts.length - 1) := back_eq_nth pts
    have hf : front pts = nth pts 0 := (nth_zero pts).symm
    have hpair : [0, pts.length - 1].Pairwise (· ≤ ·) := by simp
    have hbound : ∀ i ∈ [0, pts.length - 1], i < pts.length := by
      intro i hi
      simp only [List.mem_cons, List.mem_singleton, List.not_mem_nil, or_false] at hi
      rcases hi with rfl | rfl <;> omega
    by_cases h1 : pts.length = 1
    · obtain ⟨p, rfl⟩ := List.length_eq_one.mp h1
      rw [douglas_single] at h
      cases h
      exact ⟨[0], rfl, by simp, by simp, fun _ => ⟨rfl, rfl⟩⟩
    have h2 : 2 ≤ pts.length := by omega
    cases harc : arcTest m tol plane pts with
    | true =>
      rw [douglas_arc m fuel tol plane pts first h2 harc] at h
      cases h
      refine ⟨[0, pts.length - 1], ?_, hpair, hbound, fun _ => ⟨rfl, rfl⟩⟩
      simp only [List.map_cons, List.map_nil, ← hb, ← hf]
      rfl
    | false =>
      cases hgt : Flt.gt (worst_dist m pts) tol with
      | false =>
        rw [douglas_straight m fuel tol plane pts first h2 harc hgt] at h
        cases h
        cases first with
        | false => exact ⟨[], rfl, by simp, by simp, by simp⟩
        | true =>
          refine ⟨[0, pts.length - 1], ?_, hpair, hbound, fun _ => ⟨rfl, rfl⟩⟩
          simp only [List.map_cons, List.map_nil, ← hb, ← hf]
          rfl
      | true =>
        have hs := worst_dist_i_lt m pts tol hgt
        rw [douglas_split m fuel tol plane pts first h2 harc hgt] at h
        cases hl : douglas m fuel tol plane (pts.take (worst_dist_i m pts)) false with
        | none => simp [hl] at h
        | some l =>
          cases hr : douglas m fuel tol plane (pts.drop (worst_dist_i m pts)) false with
          | none => simp [hl, hr] at h
          | some rr =>
            simp only [hl, hr, Option.some.injEq] at h
            subst h
            obtain ⟨iL, hLpos, hLpair, hLlt, -⟩ := ih _ false l hl
            obtain ⟨iR, hRpos, hRpair, hRlt, -⟩ := ih _ false rr hr
            rw [List.length_take, Nat.min_eq_left (le_of_lt hs)] at hLlt
            rw [List.length_drop] at hRlt
            have hLpos2 : l.map Move.pos = iL.map (nth pts) := by
              rw [hLpos]
              exact List.map_congr_left (fun i hi => nth_take pts _ i (hLlt i hi))
            have hRpos2 : rr.map Move.pos
                = (iR.map (· + worst_dist_i m pts)).map (nth pts) := by
              rw [hRpos, List.map_map]
              exact List.map_congr_left (fun i _ => nth_drop pts _ i)
            have hRpair2 : (iR.map (· + worst_dist_i m pts)).Pairwise (· ≤ ·) := by
              rw [List.pairwise_map]
              exact hRpair.imp (fun hab => Nat.add_le_add_right hab _)
            have hRge : ∀ j ∈ iR.map (· + worst_dist_i m pts), worst_dist_i m pts ≤ j := by
              intro j hj
              obtain ⟨i, -, rfl⟩ := List.mem_map.mp hj
              omega
            have hRlt2 : ∀ j ∈ iR.map (· + worst_dist_i m pts), j < pts.length := by
              intro j hj
              obtain ⟨i, hi, rfl⟩ := List.mem_map.mp hj
              have := hRlt i hi
              omega
            cases first with
            | false =>
              refine ⟨iL ++ ([worst_dist_i m pts] ++ iR.map (· + worst_dist_i m pts)), ?_, ?_,
                ?_, by simp⟩
              · simp [hLpos2, hRpos2, ofPoint_pos]
              · refine pairwise_append_bound _ _ (worst_dist_i m pts) hLpair ?_
                  (fun i hi => le_of_lt (hLlt i hi)) ?_
                · exact pairwise_append_bound _ _ (worst_dist_i m pts) (by simp) hRpair2
                    (by simp) hRge
                · intro j hj
                  rcases List.mem_append.mp hj with hj | hj
                  · simp only [List.mem_singleton] at hj
                    omega
                  · exact hRge j hj
              · intro i hi
                rcases List.mem_append.mp hi with hi | hi
                · have := hLlt i hi
                  omega
                · rcases List.mem_append.mp hi with hi | hi
                  · simp only [List.mem_singleton] at hi
                    omega
                  · exact hRlt2 i hi
            | true =>
              refine ⟨([0] ++ iL) ++ ([worst_dist_i m pts]
                ++ (iR.map (· + worst_dist_i m pts) ++ [pts.length - 1])), ?_, ?_, ?_, ?_⟩
              · simp [hLpos2, hRpos2, ofPoint_pos, hb, hf]
              · refine pairwise_append_bound _ _ (worst_dist_i m pts) ?_ ?_ ?_ ?_
                · exact pairwise_append_bound _ _ 0 (by simp) hLpair (by simp)
                    (fun j _ => Nat.zero_le j)
                · refine pairwise_append_bound _ _ (worst_dist_i m pts) (by simp) ?_
                    (by simp) ?_
                  · exact pairwise_append_bound _ _ (pts.length - 1) hRpair2 (by simp)
                      (fun j hj => by have := hRlt2 j hj; omega)
                      (fun j hj => by simp only [List.mem_singleton] at hj; omega)
                  · intro j hj
                    rcases List.mem_append.mp hj with hj | hj
                    · exact hRge j hj
                    · simp only [List.mem_singleton] at hj
                      omega
                · intro i hi
                  rcases List.mem_append.mp hi with hi | hi
                  · simp only [List.mem_singleton] at hi
                    omega
                  · exact le_of_lt (hLlt i hi)
                · intro j hj
                  rcases List.mem_append.mp hj with hj | hj
                  · simp only [List.mem_singleton] at hj
                    omega
                  · rcases List.mem_append.mp hj with hj | hj
                    · exact hRge j hj
                    · simp only [List.mem_singleton] at hj
                      omega
              · intro i hi
                rcases List.mem_append.mp hi with hi | hi
                · rcases List.mem_append.mp hi with hi | hi
                  · simp only [List.mem_singleton] at hi
                    omega
                  · have := hLlt i hi
                    omega
                · rcases List.mem_append.mp hi with hi | hi
                  · simp only [List.mem_singleton] at hi
                    omega
                  · rcases List.mem_append.mp hi with hi | hi
                    · exact hRlt2 i hi
                    · simp only [List.mem_singleton] at hi
                      omega
              · intro _
                refine ⟨rfl, ?_⟩
                rw [← List.append_assoc, ← List.append_assoc]
                exact List.getLast?_concat _

/-- C23 (order-preserving selection): for every non-empty range, whenever
the outermost call of `douglas` returns, the positions of its descriptors
are the points of the range at a list of indices that is weakly increasing,
stays within the range, starts at 0 and ends at the last index; hence every
position is a point of the range and no two points are emitted out of
order.  For every tolerance at least 0 the call returns. -/
theorem douglas_order (m : Libm) (plane : Plane) (pts : List Point3f) (hne : pts ≠ []) :
    (∀ (fuel : Nat) (tol : Flt) (r : List Move),
        douglas m fuel tol plane pts true = some r →
        (∃ idx : List Nat, r.map Move.pos = idx.map (nth pts)
          ∧ idx.Pairwise (· ≤ ·)
          ∧ (∀ i ∈ idx, i < pts.length)
          ∧ idx.head? = some 0 ∧ idx.getLast? = some (pts.length - 1))
        ∧ ∀ mv ∈ r, mv.pos ∈ pts)
      ∧ (∀ t : ℚ, 0 ≤ t → m.sqrt 0 = 0 →
          ∃ r, douglas m pts.length (Flt.fin t) plane pts true = some r) := by
  refine ⟨fun fuel tol r h => ?_,
    fun t ht h0 => douglas_returns m h0 t ht plane pts.length pts true hne (le_refl _)⟩
  obtain ⟨idx, hpos, hpair, hlt, hends⟩ := douglas_indices m tol plane fuel pts true r h
  refine ⟨⟨idx, hpos, hpair, hlt, (hends rfl).1, (hends rfl).2⟩, fun mv hmv => ?_⟩
  have hmem : mv.pos ∈ r.map Move.pos := List.mem_map_of_mem _ hmv
  rw [hpos] at hmem
  obtain ⟨i, hi, hie⟩ := List.mem_map.mp hmem
  rw [← hie]
  exact nth_mem pts i (hlt i hi)

/-- The statement of `douglas_order` at the points (0,0,0), (4,0,3),
(0,0,4), (10,0,0) in plane 17 with tolerance 1/10: the descriptors are at
the indices 0, 2, 3. -/
theorem douglas_order_witness :
    (zigzag ≠ [] ∧ (0 : ℚ) ≤ 1 / 10 ∧ libmQ.sqrt 0 = 0)
      ∧ douglas libmQ 4 (Flt.fin (1 / 10)) Plane.G17 zigzag true
        = some [Move.ofPoint (pt 0 0 0), Move.ofPoint (pt 0 0 4), Move.ofPoint (pt 10 0 0)]
      ∧ [Move.ofPoint (pt 0 0 0), Move.ofPoint (pt 0 0 4), Move.ofPoint (pt 10 0 0)].map Move.pos
        = [0, 2, 3].map (nth zigzag)
      ∧ ((∃ idx : List Nat,
            [Move.ofPoint (pt 0 0 0), Move.ofPoint (pt 0 0 4),
              Move.ofPoint (pt 10 0 0)].map Move.pos = idx.map (nth zigzag)
            ∧ idx.Pairwise (· ≤ ·)
            ∧ (∀ i ∈ idx, i < zigzag.length)
            ∧ idx.head? = some 0 ∧ idx.getLast? = some (zigzag.length - 1))
          ∧ ∀ mv ∈ [Move.ofPoint (pt 0 0 0), Move.ofPoint (pt 0 0 4), Move.ofPoint (pt 10 0 0)],
              mv.pos ∈ zigzag)
      ∧ ∃ r, douglas libmQ zigzag.length (Flt.fin (1 / 10)) Plane.G17 zigzag true = some r :=
  ⟨⟨by decide, by norm_num, by decide!⟩, by decide!, by decide!,
    (douglas_order libmQ Plane.G17 zigzag (by decide)).1 4 (Flt.fin (1 / 10)) _ (by decide!),
    (douglas_order libmQ Plane.G17 zigzag (by decide)).2 (1 / 10) (by norm_num) (by decide!)⟩

/-! ## Last emitted position -/

theorem Flt.eq_of_eq (a b : Flt) (h : Flt.eq a b = true) : a = b := by
  cases a <;> cases b <;> simp [Flt.eq] at h
  rw [h]

theorem axisLast_known (v last : Flt) (hv : Flt.isnan v = false) :
    Gcode.axisLast v last = v := by
  unfold Gcode.axisLast
  cases hne : Flt.ne v last with
  | true => simp [hv]
  | false =>
    have heq : Flt.eq v last = true := by
      unfold Flt.ne at hne
      simpa using hne
    simp [hv, Flt.eq_of_eq v last heq]

theorem move_common_last (g : Gcode) (mv : Move) (gc : String) :
    (g.move_common mv gc).m_lastx = Gcode.axisLast (if mv.nx then mv.x else g.m_lastx) g.m_lastx
      ∧ (g.move_common mv gc).m_lasty
        = Gcode.axisLast (if mv.ny then mv.y else g.m_lasty) g.m_lasty
      ∧ (g.move_common mv gc).m_lastz
        = Gcode.axisLast (if mv.nz then mv.z else g.m_lastz) g.m_lastz := by
  unfold Gcode.move_common
  simp only
  split_ifs <;> exact ⟨rfl, rfl, rfl⟩

/-- After the loop of `flush` has processed a descriptor that specifies all
three axes with known values, the last emitted position is the position of
the descriptor, for an arc descriptor and for a straight one. -/
theorem emit_last (g : Gcode) (t : Move) (hfull : t.full = true)
    (hx : Flt.isnan t.x = false) (hy : Flt.isnan t.y = false) (hz : Flt.isnan t.z = false) :
    (g.emit t).m_lastx = t.x ∧ (g.emit t).m_lasty = t.y ∧ (g.emit t).m_lastz = t.z := by
  unfold Move.full at hfull
  simp only [Bool.and_eq_true] at hfull
  obtain ⟨⟨hnx, hny⟩, hnz⟩ := hfull
  unfold Gcode.emit
  split
  · exact ⟨rfl, rfl, rfl⟩
  · obtain ⟨h1, h2, h3⟩ := move_common_last g t "G01"
    rw [h1, h2, h3, hnx, hny, hnz]
    simp only [if_true]
    exact ⟨axisLast_known _ _ hx, axisLast_known _ _ hy, axisLast_known _ _ hz⟩

theorem foldl_emit_last (moves : List Move) (b : Move) (g : Gcode)
    (hlast : moves.getLast? = some b) (hfull : b.full = true)
    (hx : Flt.isnan b.x = false) (hy : Flt.isnan b.y = false) (hz : Flt.isnan b.z = false) :
    (moves.foldl Gcode.emit g).m_lastx = b.x ∧ (moves.foldl Gcode.emit g).m_lasty = b.y
      ∧ (moves.foldl Gcode.emit g).m_lastz = b.z := by
  obtain ⟨ys, rfl⟩ := List.getLast?_eq_some_iff.mp hlast
  rw [List.foldl_append]
  exact emit_last _ b hfull hx hy hz

theorem back_drop (pts : List Point3f) (k : Nat) (hk : k < pts.length) :
    back (pts.drop k) = back pts := by
  unfold back
  rw [List.getLastD_eq_getLast?, List.getLastD_eq_getLast?, List.getLast?_drop,
    if_neg (by omega)]

/-- The last of the moves `flush` obtains from `douglas` is positioned at
the last buffered point and specifies all three axes. -/
theorem flushMoves_last (m : Libm) (g : Gcode) (moves : List Move)
    (h : g.flushMoves m = some moves) :
    ∃ b, moves.getLast? = some b ∧ b.pos = back g.cuts ∧ b.full = true := by
  unfold Gcode.flushMoves at h
  split at h
  · rename_i hclosed
    simp only [Bool.and_eq_true, decide_eq_true_eq] at hclosed
    have hlen := hclosed.2
    have hhalf : g.cuts.length >>> 1 = g.cuts.length / 2 := by
      rw [Nat.shiftRight_eq_div_pow]
    simp only at h
    cases ha : douglas m (g.cuts.length >>> 1) g.m_tolerance g.plane
        (g.cuts.take (g.cuts.length >>> 1)) true with
    | none => simp [ha] at h
    | some a =>
      cases hb : douglas m (g.cuts.length - g.cuts.length >>> 1) g.m_tolerance g.plane
          (g.cuts.drop (g.cuts.length >>> 1)) true with
      | none => simp [ha, hb] at h
      | some b =>
        simp only [ha, hb, Option.some.injEq] at h
        subst h
        obtain ⟨-, y, hy, hypos, hyfull⟩ := douglas_endpoints_aux m g.plane _ _ _ b hb
        rw [back_drop g.cuts _ (by rw [hhalf]; omega)] at hypos
        refine ⟨y, ?_, hypos, hyfull⟩
        rw [List.getLast?_append, hy]
        rfl
  · obtain ⟨-, y, hy, hypos, hyfull⟩ := douglas_endpoints_aux m g.plane _ _ _ moves h
    exact ⟨y, hy, hypos, hyfull⟩

/-- C24 (position tracking after flush): for every emitter state whose
buffer is non-empty and holds no NaN coordinate, whenever `flush` returns
the last emitted position of the resulting state is the last buffered
point on all three axes, for a closed path that is bisected as well as for
a single call, and for a final arc descriptor as well as for a straight
one.  With a tolerance at least 0 `flush` returns. -/
theorem flush_tracks_position (m : Libm) (g : Gcode) (hne : g.cuts ≠ [])
    (hknown : ∀ p ∈ g.cuts,
      Flt.isnan p.x = false ∧ Flt.isnan p.y = false ∧ Flt.isnan p.z = false) :
    (∀ g1, g.flush m = some g1 →
        g1.m_lastx = (back g.cuts).x ∧ g1.m_lasty = (back g.cuts).y
          ∧ g1.m_lastz = (back g.cuts).z)
      ∧ (∀ t : ℚ, 0 ≤ t → g.m_tolerance = Flt.fin t → m.sqrt 0 = 0 →
          ∃ g1, g.flush m = some g1) := by
  refine ⟨fun g1 h => ?_, fun t ht htol h0 => flush_returns m h0 t ht g htol⟩
  have hz : g.cuts.length ≠ 0 := fun hl => hne (List.length_eq_zero.mp hl)
  unfold Gcode.flush at h
  rw [if_pos hz] at h
  cases hmoves : g.flushMoves m with
  | none => simp [hmoves] at h
  | some moves =>
    simp only [hmoves, Option.some.injEq] at h
    subst h
    obtain ⟨b, hlast, hpos, hfull⟩ := flushMoves_last m g moves hmoves
    obtain ⟨kx, ky, kz⟩ := hknown _ (back_mem g.cuts hne)
    have hbx : b.x = (back g.cuts).x := congrArg Point3f.x hpos
    have hby : b.y = (back g.cuts).y := congrArg Point3f.y hpos
    have hbz : b.z = (back g.cuts).z := congrArg Point3f.z hpos
    obtain ⟨e1, e2, e3⟩ := foldl_emit_last moves b g hlast hfull (by rw [hbx]; exact kx)
      (by rw [hby]; exact ky) (by rw [hbz]; exact kz)
    exact ⟨e1.trans hbx, e2.trans hby, e3.trans hbz⟩

/-- The statement of `flush_tracks_position` at the emitter `emitter123`
(last emitted position (1,2,3)) with tolerance 2 and the buffer `arcPts`,
which is simplified to one arc ending at (0,25,0): after the flush the last
emitted position is (0,25,0). -/
theorem flush_tracks_position_witness :
    (({ emitter123 with cuts := arcPts, m_tolerance := Flt.fin 2 } : Gcode).cuts ≠ []
        ∧ (∀ p ∈ ({ emitter123 with cuts := arcPts, m_tolerance := Flt.fin 2 } : Gcode).cuts,
            Flt.isnan p.x = false ∧ Flt.isnan p.y = false ∧ Flt.isnan p.z = false)
        ∧ (0 : ℚ) ≤ 2 ∧ libmQ.sqrt 0 = 0)
      ∧ (∀ g1, Gcode.flush libmQ { emitter123 with cuts := arcPts, m_tolerance := Flt.fin 2 }
            = some g1 →
          g1.m_lastx = Flt.fin 0 ∧ g1.m_lasty = Flt.fin 25 ∧ g1.m_lastz = Flt.fin 0)
      ∧ ∃ g1, Gcode.flush libmQ { emitter123 with cuts := arcPts, m_tolerance := Flt.fin 2 }
          = some g1 :=
  ⟨⟨by decide, by decide, by norm_num, by decide!⟩,
    (flush_tracks_position libmQ { emitter123 with cuts := arcPts, m_tolerance := Flt.fin 2 }
      (by decide) (by decide)).1,
    (flush_tracks_position libmQ { emitter123 with cuts := arcPts, m_tolerance := Flt.fin 2 }
      (by decide) (by decide)).2 2 (by norm_num) rfl (by decide!)⟩

/-! ## Unknown last position -/

theorem axisWord_unknown (letter : String) (v : Flt) :
    Gcode.axisWord letter v Flt.nan = [] := by
  simp [Gcode.axisWord]

theorem axisWord_same (letter : String) (v : Flt) : Gcode.axisWord letter v v = [] := by
  cases v <;> simp [Gcode.axisWord, Flt.ne]

theorem axisLast_unknown (v : Flt) : Gcode.axisLast v Flt.nan = v := by
  cases v <;> simp [Gcode.axisLast, Flt.ne]

theorem axisLast_same (v : Flt) : Gcode.axisLast v v = v := by
  unfold Gcode.axisLast
  split <;> rfl

/-- The output and the cached mode after `move_common`, in terms of the
three axis words. -/
theorem move_common_m_of (g : Gcode) (mv : Move) (gc : String) :
    (g.move_common mv gc).m_of
        = (if Gcode.axisWord " X" (if mv.nx then mv.x else g.m_lastx) g.m_lastx
              ++ Gcode.axisWord " Y" (if mv.ny then mv.y else g.m_lasty) g.m_lasty
              ++ Gcode.axisWord " Z" (if mv.nz then mv.z else g.m_lastz) g.m_lastz = []
          then g.m_of
          else g.m_of ++ [(if gc ≠ g.m_lastgc then [Tok.lit gc] else [])
            ++ (Gcode.axisWord " X" (if mv.nx then mv.x else g.m_lastx) g.m_lastx
              ++ Gcode.axisWord " Y" (if mv.ny then mv.y else g.m_lasty) g.m_lasty
              ++ Gcode.axisWord " Z" (if mv.nz then mv.z else g.m_lastz) g.m_lastz)])
      ∧ (g.move_common mv gc).m_lastgc
        = (if Gcode.axisWord " X" (if mv.nx then mv.x else g.m_lastx) g.m_lastx
              ++ Gcode.axisWord " Y" (if mv.ny then mv.y else g.m_lasty) g.m_lasty
              ++ Gcode.axisWord " Z" (if mv.nz then mv.z else g.m_lastz) g.m_lastz = []
          then g.m_lastgc else gc) := by
  by_cases hnil : Gcode.axisWord " X" (if mv.nx then mv.x else g.m_lastx) g.m_lastx
      ++ Gcode.axisWord " Y" (if mv.ny then mv.y else g.m_lasty) g.m_lasty
      ++ Gcode.axisWord " Z" (if mv.nz then mv.z else g.m_lastz) g.m_lastz = []
  · rw [if_pos hnil, if_pos hnil]
    unfold Gcode.move_common
    simp only [textEmpty_words, hnil, decide_True, Bool.not_true]
    exact ⟨rfl, rfl⟩
  · rw [if_neg hnil, if_neg hnil]
    unfold Gcode.move_common
    simp only [textEmpty_words, hnil, decide_False, Bool.not_false, if_true]
    by_cases hgc : gc = g.m_lastgc
    · simp [hgc]
    · simp [hgc]

theorem axisWord_shape (letter : String) (v last : Flt) :
    Gcode.axisWord letter v last = [] ∨ Gcode.axisWord letter v last
      = [Tok.lit letter, Tok.num v] := by
  rcases axisWord_cases letter v last with h | ⟨h, -⟩
  · exact Or.inl h
  · exact Or.inr h

/-- A move all of whose specified axes have an unknown last value writes
nothing, and neither does a repetition of the same move. -/
theorem move_common_all_unknown (g : Gcode) (mv : Move) (gc : String)
    (hx : mv.nx = true → g.m_lastx = Flt.nan) (hy : mv.ny = true → g.m_lasty = Flt.nan)
    (hz : mv.nz = true → g.m_lastz = Flt.nan) :
    (g.move_common mv gc).m_of = g.m_of ∧ (g.move_common mv gc).m_lastgc = g.m_lastgc
      ∧ ∀ gc2, ((g.move_common mv gc).move_common mv gc2).m_of = g.m_of := by
  have hw : ∀ (letter : String) (n : Bool) (v last : Flt), (n = true → last = Flt.nan) →
      Gcode.axisWord letter (if n then v else last) last = [] := by
    intro letter n v last h
    cases n with
    | true => rw [h rfl]; exact axisWord_unknown _ _
    | false => exact axisWord_same _ _
  have hw2 : ∀ (letter : String) (n : Bool) (v last : Flt), (n = true → last = Flt.nan) →
      Gcode.axisWord letter (if n then v else Gcode.axisLast (if n then v else last) last)
        (Gcode.axisLast (if n then v else last) last) = [] := by
    intro letter n v last h
    cases n with
    | true =>
      rw [h rfl]
      simp only [if_true, axisLast_unknown]
      exact axisWord_same _ _
    | false => exact axisWord_same _ _
  obtain ⟨hof, hgc⟩ := move_common_m_of g mv gc
  rw [hw _ _ _ _ hx, hw _ _ _ _ hy, hw _ _ _ _ hz] at hof hgc
  simp only [List.append_nil, if_true] at hof hgc
  refine ⟨hof, hgc, fun gc2 => ?_⟩
  obtain ⟨hof2, -⟩ := move_common_m_of (g.move_common mv gc) mv gc2
  obtain ⟨l1, l2, l3⟩ := move_common_last g mv gc
  rw [l1, l2, l3, hw2 _ _ _ _ hx, hw2 _ _ _ _ hy, hw2 _ _ _ _ hz] at hof2
  simp only [List.append_nil, if_true] at hof2
  rw [hof2, hof]

end Pcb2gcode
